import Mathlib

/-!
Verification of the PRISMA STUDIO resilient JSON recovery engine and
package normalizer, as implemented in the repository's core engine
(src/unnamed/part_008, the "PRODUCTION LOCK v3.1" engine; the retry tier
of src/services/geminiService.ts is embedded separately where a claim is
about that file).  Strings are modelled as `List Char`; JavaScript string
and regex operations are translated operation by operation.
-/

set_option maxRecDepth 4000

abbrev Str := List Char

/-- Whitespace as matched by the JavaScript regex class `\s` and by
`String.prototype.trim` (restricted to the ASCII range, which covers every
character the engine's inputs can contain). -/
def isJsWs (c : Char) : Bool :=
  c = ' ' || c = '\t' || c = '\n' || c = '\r' || c = Char.ofNat 11 || c = Char.ofNat 12

/-- Insignificant whitespace of the JSON grammar (RFC 8259 `ws`). -/
def isJsonWs (c : Char) : Bool :=
  c = ' ' || c = '\t' || c = '\n' || c = '\r'

/-- Model of `String.prototype.trim`: drop whitespace from both ends. -/
def jsTrim (s : Str) : Str :=
  ((s.dropWhile isJsWs).reverse.dropWhile isJsWs).reverse

/-- Model of `String.prototype.toLowerCase` on the ASCII range. -/
def lowerChar (c : Char) : Char :=
  if 'A' ≤ c ∧ c ≤ 'Z' then Char.ofNat (c.toNat + 32) else c

def lowerStr (s : Str) : Str := s.map lowerChar

mutual
/-- Model of `replace(/\s+/g, '_')`: each maximal run of whitespace
becomes a single underscore. -/
def collapseWs : Str → Str
  | [] => []
  | c :: rest => if isJsWs c then '_' :: collapseWsRun rest else c :: collapseWs rest

/-- State after the head of a whitespace run has been replaced: the rest
of the run is skipped. -/
def collapseWsRun : Str → Str
  | [] => []
  | c :: rest => if isJsWs c then collapseWsRun rest else c :: collapseWs rest
end

/-- Model of `String.prototype.indexOf` for a single character, as an
optional index (JavaScript's `-1` sentinel becomes `none`). -/
def idxOf? (p : Char → Bool) : Str → Option Nat
  | [] => none
  | c :: rest => if p c then some 0 else (idxOf? p rest).map (· + 1)

/-! ## The JSON value model and a model of a standard JSON parser

`JSON.parse` is not part of this repository (it is the host language's
standard parser), so it is modelled from the JSON standard: RFC 8259
grammar, with numerals restricted to integers (no claim in scope involves
fractional or exponent numerals) and string escapes restricted to the
single-character escapes (no claim in scope involves `\u` escapes). -/

inductive Json where
  | null : Json
  | bool (b : Bool) : Json
  | num (n : Int) : Json
  | str (s : Str) : Json
  | arr (xs : List Json) : Json
  | obj (kvs : List (Str × Json)) : Json

mutual
def decEqJson : (a b : Json) → Decidable (a = b)
  | .null, .null => .isTrue rfl
  | .bool a, .bool b =>
    if h : a = b then .isTrue (by rw [h]) else .isFalse (fun hh => h (Json.bool.inj hh))
  | .num a, .num b =>
    if h : a = b then .isTrue (by rw [h]) else .isFalse (fun hh => h (Json.num.inj hh))
  | .str a, .str b =>
    if h : a = b then .isTrue (by rw [h]) else .isFalse (fun hh => h (Json.str.inj hh))
  | .arr xs, .arr ys =>
    match decEqJsonList xs ys with
    | .isTrue h => .isTrue (by rw [h])
    | .isFalse h => .isFalse (fun hh => h (Json.arr.inj hh))
  | .obj xs, .obj ys =>
    match decEqJsonKvs xs ys with
    | .isTrue h => .isTrue (by rw [h])
    | .isFalse h => .isFalse (fun hh => h (Json.obj.inj hh))
  | .null, .bool _ | .null, .num _ | .null, .str _ | .null, .arr _ | .null, .obj _
  | .bool _, .null | .bool _, .num _ | .bool _, .str _ | .bool _, .arr _ | .bool _, .obj _
  | .num _, .null | .num _, .bool _ | .num _, .str _ | .num _, .arr _ | .num _, .obj _
  | .str _, .null | .str _, .bool _ | .str _, .num _ | .str _, .arr _ | .str _, .obj _
  | .arr _, .null | .arr _, .bool _ | .arr _, .num _ | .arr _, .str _ | .arr _, .obj _
  | .obj _, .null | .obj _, .bool _ | .obj _, .num _ | .obj _, .str _ | .obj _, .arr _ =>
    .isFalse (fun h => Json.noConfusion h)

def decEqJsonList : (xs ys : List Json) → Decidable (xs = ys)
  | [], [] => .isTrue rfl
  | [], _ :: _ => .isFalse (fun h => List.noConfusion h)
  | _ :: _, [] => .isFalse (fun h => List.noConfusion h)
  | x :: xs, y :: ys =>
    match decEqJson x y with
    | .isTrue h1 =>
      match decEqJsonList xs ys with
      | .isTrue h2 => .isTrue (by rw [h1, h2])
      | .isFalse h2 => .isFalse (fun hh => h2 (List.cons.inj hh).2
        )
    | .isFalse h1 => .isFalse (fun hh => h1 (List.cons.inj hh).1)

def decEqJsonKvs : (xs ys : List (Str × Json)) → Decidable (xs = ys)
  | [], [] => .isTrue rfl
  | [], _ :: _ => .isFalse (fun h => List.noConfusion h)
  | _ :: _, [] => .isFalse (fun h => List.noConfusion h)
  | (k1, v1) :: xs, (k2, v2) :: ys =>
    if hk : k1 = k2 then
      match decEqJson v1 v2 with
      | .isTrue h1 =>
        match decEqJsonKvs xs ys with
        | .isTrue h2 => .isTrue (by rw [hk, h1, h2])
        | .isFalse h2 => .isFalse (fun hh => h2 (List.cons.inj hh).2)
      | .isFalse h1 => .isFalse (fun hh => h1 (congrArg Prod.snd (List.cons.inj hh).1))
    else .isFalse (fun hh => hk (congrArg Prod.fst (List.cons.inj hh).1))
end

instance : DecidableEq Json := decEqJson

def skipWs (s : Str) : Str := s.dropWhile isJsonWs

def unescapeChar (c : Char) : Option Char :=
  if c = '"' then some '"'
  else if c = '\\' then some '\\'
  else if c = '/' then some '/'
  else if c = 'n' then some '\n'
  else if c = 't' then some '\t'
  else if c = 'r' then some '\r'
  else if c = 'b' then some (Char.ofNat 8)
  else if c = 'f' then some (Char.ofNat 12)
  else none

/-- Body of a JSON string literal, after the opening quote: returns the
decoded characters and the remainder after the closing quote.  Raw control
characters and unterminated literals are rejected, as in the standard. -/
def parseStringBody : Str → Option (Str × Str)
  | [] => none
  | c :: rest =>
    if c = '"' then some ([], rest)
    else if c = '\\' then
      match rest with
      | [] => none
      | e :: rest2 => do
        let u ← unescapeChar e
        let (cs, r) ← parseStringBody rest2
        pure (u :: cs, r)
    else if c.toNat < 32 then none
    else (parseStringBody rest).map (fun p => (c :: p.1, p.2))

def parseNatNum (s : Str) : Option (Nat × Str) :=
  let digits := s.takeWhile (fun c => c.isDigit)
  if digits.isEmpty then none
  else some (digits.foldl (fun n c => n * 10 + (c.toNat - 48)) 0,
             s.dropWhile (fun c => c.isDigit))

mutual
def parseValue : Nat → Str → Option (Json × Str)
  | 0, _ => none
  | Nat.succ fuel, s =>
    match skipWs s with
    | [] => none
    | c :: rest =>
      if c = '{' then
        match skipWs rest with
        | [] => (parseMembers fuel []).map (fun p => (.obj p.1, p.2))
        | d :: r2 =>
          if d = '}' then some (.obj [], r2)
          else (parseMembers fuel (d :: r2)).map (fun p => (.obj p.1, p.2))
      else if c = '[' then
        match skipWs rest with
        | [] => (parseElems fuel []).map (fun p => (.arr p.1, p.2))
        | d :: r2 =>
          if d = ']' then some (.arr [], r2)
          else (parseElems fuel (d :: r2)).map (fun p => (.arr p.1, p.2))
      else if c = '"' then (parseStringBody rest).map (fun p => (.str p.1, p.2))
      else if c = 't' then
        match rest with
        | 'r' :: 'u' :: 'e' :: r => some (.bool true, r)
        | _ => none
      else if c = 'f' then
        match rest with
        | 'a' :: 'l' :: 's' :: 'e' :: r => some (.bool false, r)
        | _ => none
      else if c = 'n' then
        match rest with
        | 'u' :: 'l' :: 'l' :: r => some (.null, r)
        | _ => none
      else if c = '-' then (parseNatNum rest).map (fun p => (.num (-(p.1 : Int)), p.2))
      else (parseNatNum (c :: rest)).map (fun p => (.num (p.1 : Int), p.2))

def parseElems : Nat → Str → Option (List Json × Str)
  | 0, _ => none
  | Nat.succ fuel, s => do
    let (v, r) ← parseValue fuel s
    match skipWs r with
    | ',' :: r2 => (parseElems fuel r2).map (fun p => (v :: p.1, p.2))
    | ']' :: r2 => some ([v], r2)
    | _ => none

def parseMembers : Nat → Str → Option (List (Str × Json) × Str)
  | 0, _ => none
  | Nat.succ fuel, s =>
    match s with
    | '"' :: rest => do
      let (k, r1) ← parseStringBody rest
      match skipWs r1 with
      | ':' :: r2 => do
        let (v, r3) ← parseValue fuel r2
        match skipWs r3 with
        | ',' :: r4 => (parseMembers fuel (skipWs r4)).map (fun p => ((k, v) :: p.1, p.2))
        | '}' :: r4 => some ([(k, v)], r4)
        | _ => none
      | _ => none
    | _ => none
end

/-- Model of a standard JSON parser (`JSON.parse` succeeding iff the text
is a valid JSON document): parse one value, then require only whitespace
to remain. -/
def parseJson (s : Str) : Option Json :=
  match parseValue (s.length + 1) s with
  | some (v, r) => if skipWs r = [] then some v else none
  | none => none

/-! ## The JSON recovery engine (`cleanJsonString`, v3.1 engine)

Translated line by line from `cleanJsonString` in the v3.1 core engine
(src/unnamed/part_008, lines 55-130). -/

def backtick : Char := Char.ofNat 96

/-- Model of `cleaned.replace(/^```json\s*/i, '')`: strip a leading
markdown fence marker (case-insensitive `json` tag) together with the
whitespace that follows it. -/
def stripFenceStart (s : Str) : Str :=
  if s.take 3 = [backtick, backtick, backtick] ∧ lowerStr ((s.drop 3).take 4) = ('j' :: 's' :: 'o' :: 'n' :: []) then
    (s.drop 7).dropWhile isJsWs
  else s

/-- Model of `cleaned.replace(/```$/i, '')`: strip one trailing fence.
(The JavaScript `$` anchor would also match before a final newline, but
this step always runs on trimmed text, which has no trailing newline.) -/
def stripFenceEnd (s : Str) : Str :=
  if s.reverse.take 3 = [backtick, backtick, backtick] then (s.reverse.drop 3).reverse
  else s

/-- Steps 1-2 of the engine: `text.trim()`, fence stripping, `trim()`. -/
def preprocess (text : Str) : Str :=
  jsTrim (stripFenceEnd (stripFenceStart (jsTrim text)))

/-- The root-location step: `indexOf('{')` and `indexOf('[')`, choosing
whichever occurs first (mirrors the `startObj`/`startArr` conditional). -/
def jsonRootIdx (cleaned : Str) : Option Nat :=
  match idxOf? (fun c => c = '{') cleaned, idxOf? (fun c => c = '[') cleaned with
  | some i, some j => some (if i < j then i else j)
  | some i, none => some i
  | none, some j => some j
  | none, none => none

/-- The scan state of the character loop: brace/bracket counters, the
in-string and escape flags, and the last recorded safe-to-cut index. -/
structure ScanSt where
  brace : Int
  bracket : Int
  ins : Bool
  esc : Bool
  lastSafe : Option Nat
deriving DecidableEq, Repr

inductive ScanOut where
  /-- The v3.1 early exit: both counters returned to zero outside a
  string at index `n - 1`, and the text is to be cut to its first `n`
  characters. -/
  | cut (n : Nat) (st : ScanSt) : ScanOut
  /-- The loop ended by exhausting the input or by the negative-counter
  break; the text is left unchanged at this stage. -/
  | stop (st : ScanSt) : ScanOut
deriving DecidableEq, Repr

def initScanSt : ScanSt := ⟨0, 0, false, false, none⟩

/-- The character loop of `cleanJsonString` (v3.1 engine, lines 79-105),
one iteration per character, threading the index `i`. -/
def scanLoop : Str → Nat → ScanSt → ScanOut
  | [], _, st => .stop st
  | c :: rest, i, st =>
    let ins1 := if c = '"' ∧ st.esc = false then !st.ins else st.ins
    if ins1 then
      let st1 : ScanSt := ⟨st.brace, st.bracket, ins1, c = '\\' ∧ st.esc = false, st.lastSafe⟩
      if st.brace < 0 ∨ st.bracket < 0 then .stop st1 else scanLoop rest (i + 1) st1
    else
      let b1 := st.brace + (if c = '{' then 1 else 0) - (if c = '}' then 1 else 0)
      let k1 := st.bracket + (if c = '[' then 1 else 0) - (if c = ']' then 1 else 0)
      let ls1 := if 0 ≤ b1 ∧ 0 ≤ k1 ∧ (c = '}' ∨ c = ']' ∨ c = ',') then some i else st.lastSafe
      if b1 = 0 ∧ k1 = 0 ∧ 0 < i then .cut (i + 1) ⟨b1, k1, ins1, st.esc, ls1⟩
      else
        let st1 : ScanSt := ⟨b1, k1, ins1, c = '\\' ∧ st.esc = false, ls1⟩
        if b1 < 0 ∨ k1 < 0 then .stop st1 else scanLoop rest (i + 1) st1

/-- Model of `cleaned.replace(/,$/, '')`: drop one trailing comma. -/
def dropTrailingComma (s : Str) : Str :=
  if s.getLast? = some ',' then s.dropLast else s

/-- The balance re-scan of the truncation branch: count braces and
brackets over the whole text, ignoring string state. -/
def countBraces (s : Str) : Int × Int :=
  s.foldl (fun p c =>
    (p.1 + (if c = '{' then 1 else 0) - (if c = '}' then 1 else 0),
     p.2 + (if c = '[' then 1 else 0) - (if c = ']' then 1 else 0))) (0, 0)

/-- The truncation repair: cut at the last safe point, trim, strip a
trailing comma, then append the closing brackets and braces needed to
balance (all `]` first, then all `}`, as in the source's two loops). -/
def repairAtSafe (cleaned : Str) (ls : Nat) : Str :=
  let c1 := dropTrailingComma (jsTrim (cleaned.take (ls + 1)))
  let p := countBraces c1
  c1 ++ List.replicate p.2.toNat ']' ++ List.replicate p.1.toNat '}'

mutual
/-- Model of `replace(/,\s*([\]}])/g, '$1')`: delete a comma (and the
whitespace after it) when the next non-whitespace character closes a
bracket or brace.  Implemented as the regex scan: a comma opens a
candidate match and whitespace after it is buffered; a closing
bracket/brace completes the match (the replacement is the closer alone),
anything else abandons it, emits the comma and buffered whitespace, and
resumes scanning at the abandoning character (no skipped position can
start a new match, since the pattern starts with a comma and only
whitespace was skipped). -/
def replCommaCloser : Str → Str
  | [] => []
  | c :: rest => if c = ',' then replCommaCloserWs [] rest else c :: replCommaCloser rest

/-- The state after a comma: `wsbuf` holds the buffered whitespace in
reverse.  The abandoning character is dispatched inline (it is either a
fresh comma, opening a new candidate match, or an ordinary character). -/
def replCommaCloserWs (wsbuf : Str) : Str → Str
  | [] => ',' :: wsbuf.reverse
  | c :: rest =>
    if isJsWs c then replCommaCloserWs (c :: wsbuf) rest
    else if c = ']' ∨ c = '}' then c :: replCommaCloser rest
    else if c = ',' then ',' :: wsbuf.reverse ++ replCommaCloserWs [] rest
    else ',' :: wsbuf.reverse ++ (c :: replCommaCloser rest)
end

mutual
/-- Model of `replace(/"\s*:\s*"/g, '":"')`: collapse whitespace around a
colon that sits between two double quotes, as the regex scan (a quote
opens a candidate match, whitespace is buffered, and an abandoned match
emits what was skipped and resumes at the abandoning character — no
skipped position can start a new match, since the pattern starts with a
quote and only whitespace and the colon are skipped). -/
def replQuoteColon : Str → Str
  | [] => []
  | c :: rest => if c = '"' then replQuoteColonQ [] rest else c :: replQuoteColon rest

/-- After the opening quote, buffering whitespace before the colon. -/
def replQuoteColonQ (buf1 : Str) : Str → Str
  | [] => '"' :: buf1.reverse
  | c :: rest =>
    if isJsWs c then replQuoteColonQ (c :: buf1) rest
    else if c = ':' then replQuoteColonC buf1 [] rest
    else if c = '"' then '"' :: buf1.reverse ++ replQuoteColonQ [] rest
    else '"' :: buf1.reverse ++ (c :: replQuoteColon rest)

/-- After the colon, buffering whitespace before the closing quote. -/
def replQuoteColonC (buf1 buf2 : Str) : Str → Str
  | [] => '"' :: buf1.reverse ++ ':' :: buf2.reverse
  | c :: rest =>
    if isJsWs c then replQuoteColonC buf1 (c :: buf2) rest
    else if c = '"' then '"' :: ':' :: '"' :: replQuoteColon rest
    else '"' :: buf1.reverse ++ ':' :: buf2.reverse ++ (c :: replQuoteColon rest)
end

/-- The final post-processing chain (lines 125-129): newlines and
carriage returns to spaces, then the two global regex replacements. -/
def postprocess (s : Str) : Str :=
  replQuoteColon (replCommaCloser (s.map (fun c => if c = '\n' ∨ c = '\r' then ' ' else c)))

/-- The portion of `cleanJsonString` that runs on the text from the
structural root onward: the scan, the truncation repair, and the
post-processing. -/
def recoverFromRoot (cleaned : Str) : Str :=
  match scanLoop cleaned 0 initScanSt with
  | .cut n _ => postprocess (cleaned.take n)
  | .stop st =>
    if 0 < st.brace ∨ 0 < st.bracket ∨ st.ins then
      match st.lastSafe with
      | some ls => postprocess (repairAtSafe cleaned ls)
      | none => postprocess (if cleaned.getLast? = some '}' then cleaned else cleaned ++ ['}'])
    else postprocess cleaned

def emptyObjText : Str := ['{', '}']

/-- `cleanJsonString` of the v3.1 core engine: the `!text` guard, the
trim/fence preprocessing, the root location (first `{` or `[`), and the
scan-and-repair pipeline.  An absent (`undefined`) argument behaves as
the empty string. -/
def cleanJsonString (text : Str) : Str :=
  if text.isEmpty then emptyObjText
  else
    let cleaned := preprocess text
    match jsonRootIdx cleaned with
    | none => emptyObjText
    | some start => recoverFromRoot (cleaned.drop start)

/-! ## The legacy recovery engine and its parse-retry tier

`cleanJsonString` as it appears in src/services/geminiService.ts
(lines 46-104) differs from the v3.1 engine in exactly two ways: the
root is located with `indexOf('{')` alone, and the scan has no
zero-balance early exit.  The caller `generateMoviePackage` in that file
(lines 244-255) owns the append-one-brace parse retry. -/

def scanLoopV2 : Str → Nat → ScanSt → ScanOut
  | [], _, st => .stop st
  | c :: rest, i, st =>
    let ins1 := if c = '"' ∧ st.esc = false then !st.ins else st.ins
    if ins1 then
      let st1 : ScanSt := ⟨st.brace, st.bracket, ins1, c = '\\' ∧ st.esc = false, st.lastSafe⟩
      if st.brace < 0 ∨ st.bracket < 0 then .stop st1 else scanLoopV2 rest (i + 1) st1
    else
      let b1 := st.brace + (if c = '{' then 1 else 0) - (if c = '}' then 1 else 0)
      let k1 := st.bracket + (if c = '[' then 1 else 0) - (if c = ']' then 1 else 0)
      let ls1 := if 0 ≤ b1 ∧ 0 ≤ k1 ∧ (c = '}' ∨ c = ']' ∨ c = ',') then some i else st.lastSafe
      let st1 : ScanSt := ⟨b1, k1, ins1, c = '\\' ∧ st.esc = false, ls1⟩
      if b1 < 0 ∨ k1 < 0 then .stop st1 else scanLoopV2 rest (i + 1) st1

def recoverFromRootV2 (cleaned : Str) : Str :=
  match scanLoopV2 cleaned 0 initScanSt with
  | .cut _ _ => postprocess cleaned
  | .stop st =>
    if 0 < st.brace ∨ 0 < st.bracket ∨ st.ins then
      match st.lastSafe with
      | some ls => postprocess (repairAtSafe cleaned ls)
      | none => postprocess (if cleaned.getLast? = some '}' then cleaned else cleaned ++ ['}'])
    else postprocess cleaned

/-- `cleanJsonString` of src/services/geminiService.ts: identical to the
v3.1 engine except that the root is the first `{` only. -/
def cleanJsonStringV2 (text : Str) : Str :=
  if text.isEmpty then emptyObjText
  else
    let cleaned := preprocess text
    match idxOf? (fun c => c = '{') cleaned with
    | none => emptyObjText
    | some start => recoverFromRootV2 (cleaned.drop start)

def isOkE : Except Str Json → Bool
  | .ok _ => true
  | .error _ => false

def structuralFailureMsgV2 : Str :=
  ("JSON_STRUCTURAL_FAILURE: Response was truncated or malformed. Reduce 'Asset Density'.").toList

/-- The parse tier of `generateMoviePackage` in
src/services/geminiService.ts: `JSON.parse(rawJson)`, one retry on
`rawJson + '\x7d'`, then the structural-failure error. -/
def parseStageV2 (raw : Str) : Except Str Json :=
  let rawJson := cleanJsonStringV2 raw
  match parseJson rawJson with
  | some v => .ok v
  | none =>
    match parseJson (rawJson ++ ['}']) with
    | some v => .ok v
    | none => .error structuralFailureMsgV2

/-! ## Keyframe count table (v3.1 engine, lines 132-144) -/

/-- The normalized two-level keyframe table: `table[dKey]?.[denKey]` as an
optional entry (`undefined` becomes `none`; every entry is nonzero, so the
JavaScript `|| 8` fires exactly on `none`). -/
def keyframeTable (dKey denKey : Str) : Option Nat :=
  let row : Option (Nat × Nat × Nat) :=
    if dKey = ("30_seconds").toList then some (4, 5, 6)
    else if dKey = ("1_minute").toList then some (6, 8, 10)
    else if dKey = ("3_minutes").toList then some (10, 14, 18)
    else if dKey = ("5_minutes").toList then some (14, 20, 26)
    else if dKey = ("8_minutes").toList then some (18, 26, 34)
    else if dKey = ("10_minutes").toList then some (20, 30, 40)
    else none
  match row with
  | none => none
  | some r =>
    if denKey = ("concise").toList then some r.1
    else if denKey = ("standard").toList then some r.2.1
    else if denKey = ("detailed").toList then some r.2.2
    else none

/-- `getRequiredKeyframeCount` of the v3.1 engine: `dKey` is the duration
lowercased with whitespace runs replaced by `_`, `denKey` is the density
lowercased, and unmatched combinations fall back to 8. -/
def getRequiredKeyframeCount (dur den : Str) : Nat :=
  let dKey := collapseWs (lowerStr dur)
  let denKey := lowerStr den
  (keyframeTable dKey denKey).getD 8

/-! ## Style presets (`VISUAL_STYLE_PRESETS`, identical in both engines) -/

structure StylePreset where
  image_style : Str
  video_style : Str
  recommended_vst : Str
deriving DecidableEq, Repr

def ghibliPreset : StylePreset :=
  ⟨("Studio Ghibli aesthetic, hand-painted watercolor anime, soft edges").toList,
   ("painterly animation feel, gentle parallax pans, soft light transitions").toList,
   ("VST_08 Soft Pastel Dream").toList⟩

def visualStylePresets (name : Str) : Option StylePreset :=
  if name = ("Stickman — 2D Classic").toList then
    some ⟨("2D classic stickman animation, clean vector linework, flat shapes").toList,
          ("2D classic stickman motion, smooth tweened animation, stable linework").toList,
          ("VST_01 Clean Digital Cinema").toList⟩
  else if name = ("Stickman — Blueprint").toList then
    some ⟨("blueprint schematic style, cyan grid, white technical line drawings").toList,
          ("blueprint line-reveal animation, technical callout pop-ins").toList,
          ("VST_14 Matte Minimalist").toList⟩
  else if name = ("Stickman — Chalkboard").toList then
    some ⟨("chalkboard sketch style, rough chalk strokes, dusty smudges").toList,
          ("chalk-writing reveal animation, smudge transitions, chalk dust").toList,
          ("VST_05 Overcast Documentary").toList⟩
  else if name = ("Stickman — 3D Render").toList then
    some ⟨("simple 3D stick-figure render, smooth plastic, soft studio light").toList,
          ("simple 3D character animation, smooth keyframed motion").toList,
          ("VST_09 High-Key Commercial").toList⟩
  else if name = ("Clay Animation").toList then
    some ⟨("clay animation style, handcrafted clay textures, fingerprints").toList,
          ("claymation motion, stop-motion jitter, tactile deformations").toList,
          ("VST_02 Warm Indie Drama").toList⟩
  else if name = ("Studio Ghibli").toList then some ghibliPreset
  else if name = ("Retro Anime").toList then
    some ⟨("retro 90s anime cel style, ink lines, limited shading, halation").toList,
          ("retro cel animation, limited-frame cadence, classic anime holds").toList,
          ("VST_06 Retro 35mm Film").toList⟩
  else if name = ("Pixar Style").toList then
    some ⟨("stylized 3D family animation look, expressive faces, global illumination").toList,
          ("stylized 3D animation, smooth character arcs, cinematic DOF").toList,
          ("VST_09 High-Key Commercial").toList⟩
  else if name = ("Stop-motion Animation").toList then
    some ⟨("miniature practical set, handmade props, tactile textures").toList,
          ("stop-motion feel, frame jitter, miniature parallax").toList,
          ("VST_07 Vintage 16mm Home-Movie").toList⟩
  else if name = ("Cutout Animation").toList then
    some ⟨("2D cutout puppet look, layered paper shapes, crisp silhouettes").toList,
          ("cutout puppet motion, hinge-like limb movement, layered parallax").toList,
          ("VST_14 Matte Minimalist").toList⟩
  else if name = ("3D CGI Animation").toList then
    some ⟨("high quality 3D CGI frame, detailed materials, cinematic lighting").toList,
          ("3D CGI cinematic, smooth camera moves, realistic motion blur").toList,
          ("VST_11 Anamorphic Cinematic").toList⟩
  else if name = ("Cinematic 8K").toList then
    some ⟨("ultra-detailed cinematic realism, crisp textures, shallow DOF").toList,
          ("cinematic realism, slow dolly tracking, realistic motion blur").toList,
          ("VST_11 Anamorphic Cinematic").toList⟩
  else if name = ("Documentary").toList then
    some ⟨("documentary realism, natural lighting, candid framing").toList,
          ("documentary camera language, handheld shake, natural ambience").toList,
          ("VST_05 Overcast Documentary").toList⟩
  else if name = ("Cyberpunk").toList then
    some ⟨("cyberpunk neon city, wet reflective streets, magenta/cyan practicals").toList,
          ("neon noir cinematic, slow tracking, volumetric haze motion").toList,
          ("VST_12 Neon Night City").toList⟩
  else if name = ("Film Noir").toList then
    some ⟨("film noir, classic monochrome, hard shadows, dramatic contrast").toList,
          ("noir pacing, slow push-in, chiaroscuro lighting, smoke drift").toList,
          ("VST_13 Black & White Classic").toList⟩
  else if name = ("Low-Key Thriller").toList then
    some ⟨("low-key thriller lighting, deep shadows, tight contrast").toList,
          ("suspense pacing, slow dolly in, handheld tension").toList,
          ("VST_10 Low-Key Thriller").toList⟩
  else none

/-- `VISUAL_STYLE_PRESETS[name] || VISUAL_STYLE_PRESETS["Studio Ghibli"]`. -/
def resolveStyle (name : Str) : StylePreset :=
  (visualStylePresets name).getD ghibliPreset

/-! ## The package normalizer (v3.1 `generateMoviePackage`, lines 304-320)

The parsed completion is an arbitrary `Json` value.  JavaScript property
access, truthiness and the `||` defaulting idiom are modelled explicitly;
property access on `null` throws a TypeError, modelled by `none` threaded
through the `Option` monad (the surrounding `catch` turns it into an
engine failure, so no package is returned on that path). -/

/-- The relevant fields of `UserInput` (src/types: script, visual style,
aspect ratio, video duration, scene density); the aspect-ratio field is
called `aspect` here. -/
structure UserInput where
  script : Str
  visualStyle : Str
  aspect : Str
  videoDuration : Str
  sceneDensity : Str
deriving DecidableEq, Repr

/-- JavaScript truthiness of a JSON value (`NaN` cannot arise). -/
def jsTruthy : Json → Bool
  | .null => false
  | .bool b => b
  | .num n => n ≠ 0
  | .str s => !s.isEmpty
  | .arr _ => true
  | .obj _ => true

/-- `x || d` where `x` is a possibly-`undefined` property. -/
def jsOr (x : Option Json) (d : Json) : Json :=
  match x with
  | some v => if jsTruthy v then v else d
  | none => d

/-- Last-wins key lookup, matching how `JSON.parse` materializes
duplicate keys into a JavaScript object. -/
def lookupLast (kvs : List (Str × Json)) (k : Str) : Option Json :=
  kvs.foldl (fun acc p => if p.1 = k then some p.2 else acc) none

/-- `base[k]`: a thrown TypeError on `null` is `none`; otherwise
`some none` is `undefined` and `some (some v)` is a present property. -/
def jsAccess : Json → Str → Option (Option Json)
  | .null, _ => none
  | .obj kvs, k => some (lookupLast kvs k)
  | _, _ => some none

/-- `base[k1]?.[k2]` (optional chaining, as in `data.metadata?.topic`). -/
def optChain (base : Json) (k1 k2 : Str) : Option (Option Json) := do
  let f1 ← jsAccess base k1
  match f1 with
  | none => some none
  | some Json.null => some none
  | some v => jsAccess v k2

structure PkgMetadata where
  topic : Json
  mood : Json
  visualStyle : Str
  aspect : Str
  duration : Str
deriving DecidableEq

/-- The normalized output record built by `generateMoviePackage`.  Fields
the source passes through unchecked keep the `Json` type; fields it always
assigns from the request or constants are plain strings. -/
structure ProductionPackage where
  metadata : PkgMetadata
  seo : Json
  story : Json
  titles : Json
  visualPrompts : List Json
  audioMap : List Json
  cst : Str
  bst : Str
  gst : Str
  vst : Str
deriving DecidableEq

/-- The default SEO bundle of the source's `data.seo || {...}`. -/
def defaultSeo : Json :=
  .obj [(("bestTitle").toList, .str (("Untitled").toList)),
        (("altTitles").toList, .arr []),
        (("videoDescription").toList, .str []),
        (("tags").toList, .str []),
        (("hashtags").toList, .str []),
        (("thumbnailPrompt").toList, .str []),
        (("sunoPrompt").toList, .str [])]

/-- `p.label || "Scene"` mapped over the valid prompts (the fallback for
`keyframe_plan_titles`); accessing `label` on a `null` element throws. -/
def fallbackTitles (ps : List Json) : Option Json := do
  let ls ← ps.mapM (fun p => do
    let lF ← jsAccess p (("label").toList)
    pure (jsOr lF (.str (("Scene").toList))))
  pure (.arr ls)

/-- `Array.isArray(x) ? x : []` for a possibly-absent property value. -/
def asArray : Option Json → List Json
  | some (.arr xs) => xs
  | _ => []

/-- `data.keyframe_plan_titles || validPrompts.map(p => p.label || "Scene")`:
the left operand when present and truthy, else the fallback map (which can
throw on a `null` element). -/
def titlesOf (titlesF : Option Json) (validPrompts : List Json) : Option Json :=
  match titlesF with
  | some v => if jsTruthy v then some v else fallbackTitles validPrompts
  | none => fallbackTitles validPrompts

/-- The normalizer: the body of v3.1 `generateMoviePackage` from the
`validPrompts` slice through the returned object literal, for an already
parsed completion `data`. -/
def normalizePackage (data : Json) (input : UserInput) : Option ProductionPackage := do
  let keyframeTotal := getRequiredKeyframeCount input.videoDuration input.sceneDensity
  let stylePreset := resolveStyle input.visualStyle
  let vpF ← jsAccess data (("visualPrompts").toList)
  let validPrompts := (asArray vpF).take keyframeTotal
  let topicF ← optChain data (("metadata").toList) (("topic").toList)
  let moodF ← optChain data (("metadata").toList) (("mood").toList)
  let seoF ← jsAccess data (("seo").toList)
  let storyF ← jsAccess data (("story").toList)
  let titlesF ← jsAccess data (("keyframe_plan_titles").toList)
  let titles ← titlesOf titlesF validPrompts
  pure
    { metadata :=
        { topic := jsOr topicF (.str (input.script.take 30))
          mood := jsOr moodF (.str (("Cinematic").toList))
          visualStyle := input.visualStyle
          aspect := input.aspect
          duration := input.videoDuration }
      seo := jsOr seoF defaultSeo
      story := jsOr storyF (.str input.script)
      titles := titles
      visualPrompts := validPrompts
      audioMap := []
      cst := []
      bst := []
      gst := []
      vst := stylePreset.recommended_vst }

/-- Processing of one model completion by v3.1 `generateMoviePackage`:
recovery, parse, then normalization; `none` is any path on which this
completion does not produce a returned package (parse failure leads to
the regenerate-once retry, which processes a fresh completion through
this same function). -/
def processCompletion (input : UserInput) (raw : Str) : Option ProductionPackage :=
  match parseJson (cleanJsonString raw) with
  | some data => normalizePackage data input
  | none => none

def decEqExceptSJ : (a b : Except Str Json) → Decidable (a = b)
  | .ok a, .ok b =>
    if h : a = b then .isTrue (by rw [h]) else .isFalse (fun hh => h (Except.ok.inj hh))
  | .error a, .error b =>
    if h : a = b then .isTrue (by rw [h]) else .isFalse (fun hh => h (Except.error.inj hh))
  | .ok _, .error _ => .isFalse (fun h => Except.noConfusion h)
  | .error _, .ok _ => .isFalse (fun h => Except.noConfusion h)

instance : DecidableEq (Except Str Json) := decEqExceptSJ

/-! ## Specification-side definitions and the claims' concrete inputs -/

/-- The claim's label normalization: case-insensitive, whitespace to
underscore (applied to BOTH labels, as the specification words it). -/
def specNormalizeLabel (s : Str) : Str := collapseWs (lowerStr s)

/-- The keyframe-count function as the specification describes it: the
table entry when both normalized labels match, else the fixed default 8. -/
def specKeyframeCount (d den : Str) : Nat :=
  (keyframeTable (specNormalizeLabel d) (specNormalizeLabel den)).getD 8

/-- A structural root character, for the claim's description of the root
location step. -/
def isStructChar (c : Char) : Bool := c = '{' || c = '['

/-- Property lookup on a parsed value (object field access). -/
def getField (j : Json) (k : Str) : Option Json :=
  match j with
  | .obj kvs => lookupLast kvs k
  | _ => none

/-- The `visualPrompts` array of a parsed completion, as the source reads
it (`Array.isArray(data.visualPrompts) ? data.visualPrompts : []`). -/
def vpArray : Json → List Json
  | .obj kvs => asArray (lookupLast kvs (("visualPrompts").toList))
  | _ => []

/-- Whether a possibly-absent property would be replaced by the `||`
default: absent, null, or present but falsy. -/
def propDefaulted : Option (Option Json) → Bool
  | some (some v) => !jsTruthy v
  | some none => true
  | none => true

/-- The fully-defaulted package produced from an empty parsed object. -/
def defaultsPkg (input : UserInput) : ProductionPackage :=
  { metadata :=
      { topic := .str (input.script.take 30)
        mood := .str (("Cinematic").toList)
        visualStyle := input.visualStyle
        aspect := input.aspect
        duration := input.videoDuration }
    seo := defaultSeo
    story := .str input.script
    titles := .arr []
    visualPrompts := []
    audioMap := []
    cst := []
    bst := []
    gst := []
    vst := (resolveStyle input.visualStyle).recommended_vst }

/-- No comma directly followed by a closing bracket or brace (the shape
rewritten by the `,\s*([\]}])` post-processing step; on whitespace-free
text adjacency is the only way the pattern can match). -/
def commaOkB : Str → Bool
  | a :: b :: rest =>
    (if a = ',' ∧ (b = ']' ∨ b = '}') then false else true) && commaOkB (b :: rest)
  | _ => true

/-- The index at which the scan's zero-balance exit cuts, when it fires. -/
def scanCutLen (t : Str) : Option Nat :=
  match scanLoop t 0 initScanSt with
  | .cut n _ => some n
  | .stop _ => none

def c1input : Str := ("\x7b\"a\":\"hello wor").toList
def c1output : Str := ("\x7b\"a\":\"hello wor\x7d").toList
def c2input : Str := ("\x7b\"a\":1,\"b\":[1,2,").toList
def c2output : Str := ("\x7b\"a\":1,\"b\":[1,2]\x7d").toList
def c2value : Json :=
  .obj [(("a").toList, .num 1), (("b").toList, .arr [.num 1, .num 2])]
def c3input : Str := ("\x7b\"a\":1\x7d\x7d\x7d").toList
def c3output : Str := ("\x7b\"a\":1\x7d").toList
def c3value : Json := .obj [(("a").toList, .num 1)]
def c4text : Str := ("\x7b\"k\":\",]\"\x7d").toList
def c4valueOrig : Json := .obj [(("k").toList, .str ((",]").toList))]
def c4valueClean : Json := .obj [(("k").toList, .str (("]").toList))]
def c4goodText : Str := ("\x7b\"ok\":[1,2]\x7d").toList
def c4goodValue : Json :=
  .obj [(("ok").toList, .arr [.num 1, .num 2])]
def c5noStruct : Str := ("not json at all").toList
def c5arrInput : Str := ("xx[1,2]").toList
def c6retryRaw : Str := ("\x7b\"a\":\x7b\"b\":1").toList
def c6failRaw : Str := ("\x7b\"a\":\"x").toList

def input0 : UserInput :=
  ⟨("a long script text for testing the topic default behavior").toList,
   ("Cyberpunk").toList, ("16:9").toList, ("1 Minute").toList, ("Standard").toList⟩

def c8data : Json :=
  .obj [(("visualPrompts").toList, .arr (List.replicate 12 (.str (("p").toList))))]
def c9data : Json := .obj [(("seo").toList, .obj [])]
def c10raw1 : Str := ("\x7b\"a\":1\x7d").toList
def c10raw2 : Str := ("\x7b\"story\":\"hello\"\x7d").toList

/-! ## A canonical serializer for the idempotence analysis

To state how recovery behaves on well-formed input as a property of JSON
values rather than of raw texts, values over a "safe" string alphabet are
serialized canonically (no inter-token whitespace, no escapes); the safe
alphabet excludes exactly the characters that the engine's string-blind
post-processing rewrites or that the scanner or serializer treat
specially. -/

def safeChar (c : Char) : Bool :=
  !isJsWs c && !(c = '"') && !(c = '\\') && !(c = '{') && !(c = '}') && !(c = '[') &&
    !(c = ']') && !(c = ',') && !(c = ':') && !(c = backtick) && decide (32 ≤ c.toNat)

mutual
def safeJson : Json → Bool
  | .null => true
  | .bool _ => true
  | .num _ => true
  | .str s => s.all safeChar
  | .arr xs => safeJsonList xs
  | .obj kvs => safeJsonKvs kvs

def safeJsonList : List Json → Bool
  | [] => true
  | x :: xs => safeJson x && safeJsonList xs

def safeJsonKvs : List (Str × Json) → Bool
  | [] => true
  | (k, v) :: kvs => k.all safeChar && safeJson v && safeJsonKvs kvs
end

/-- Decimal digits of a positive number, most significant first (fuel
recursion; any fuel at least the digit count gives the digits, and
`n` itself is always enough). -/
def natDigitsAux : Nat → Nat → Str
  | 0, _ => []
  | Nat.succ fuel, n =>
    if n = 0 then []
    else natDigitsAux fuel (n / 10) ++ [Char.ofNat (48 + n % 10)]

/-- Decimal digits of a natural number, most significant first. -/
def natDigits (n : Nat) : Str :=
  if n = 0 then ['0'] else natDigitsAux n n

def intToStr (n : Int) : Str :=
  if n < 0 then '-' :: natDigits (-n).toNat else natDigits n.toNat

mutual
def serialize : Json → Str
  | .null => ('n' :: 'u' :: 'l' :: 'l' :: [])
  | .bool true => ('t' :: 'r' :: 'u' :: 'e' :: [])
  | .bool false => ('f' :: 'a' :: 'l' :: 's' :: 'e' :: [])
  | .num n => intToStr n
  | .str s => '"' :: s ++ ['"']
  | .arr xs => '[' :: serializeList xs ++ [']']
  | .obj kvs => '{' :: serializeKvs kvs ++ ['}']

def serializeList : List Json → Str
  | [] => []
  | [x] => serialize x
  | x :: xs => serialize x ++ ',' :: serializeList xs

def serializeKvs : List (Str × Json) → Str
  | [] => []
  | [(k, v)] => '"' :: k ++ '"' :: ':' :: serialize v
  | (k, v) :: kvs => ('"' :: k ++ '"' :: ':' :: serialize v) ++ ',' :: serializeKvs kvs
end

mutual
/-- Fuel bound for the parser on serialized values. -/
def szV : Json → Nat
  | .null => 1
  | .bool _ => 1
  | .num _ => 1
  | .str _ => 1
  | .arr xs => szL xs + 1
  | .obj kvs => szK kvs + 1

def szL : List Json → Nat
  | [] => 0
  | x :: xs => max (szV x) (szL xs) + 1

def szK : List (Str × Json) → Nat
  | [] => 0
  | (_, v) :: kvs => max (szV v) (szK kvs) + 1
end

def noDigitHead (rest : Str) : Bool :=
  match rest with
  | [] => true
  | c :: _ => !c.isDigit

def isContainer : Json → Bool
  | .arr _ => true
  | .obj _ => true
  | _ => false

/-! ## General lemmas -/

theorem dropWhile_noop {p : Char → Bool} {l : Str} (h : ∀ c ∈ l, p c = false) :
    l.dropWhile p = l := by
  cases l with
  | nil => rfl
  | cons c rest =>
    rw [List.dropWhile_cons]
    simp [h c (by simp)]

theorem jsTrim_noop {l : Str} (h : ∀ c ∈ l, isJsWs c = false) : jsTrim l = l := by
  unfold jsTrim
  rw [dropWhile_noop h, dropWhile_noop (by intro c hc; exact h c (by simpa using hc))]
  simp

theorem map_noop {f : Char → Char} {l : Str} (h : ∀ c ∈ l, f c = c) : l.map f = l := by
  induction l with
  | nil => rfl
  | cons c rest ih =>
    simp only [List.map_cons, h c (by simp)]
    rw [ih (fun c hc => h c (by simp [hc]))]

theorem commaOkB_tail {b : Char} {rest : Str} {a : Char}
    (h : commaOkB (a :: b :: rest) = true) : commaOkB (b :: rest) = true := by
  simp only [commaOkB, Bool.and_eq_true] at h
  exact h.2

theorem commaOkB_head {b : Char} {rest : Str}
    (h : commaOkB (',' :: b :: rest) = true) : ¬(b = ']' ∨ b = '}') := by
  simp only [commaOkB, Bool.and_eq_true] at h
  have h1 := h.1
  intro hd
  simp [hd] at h1

theorem replCC_pair : (n : Nat) →
    (∀ t : Str, t.length ≤ n → (∀ c ∈ t, isJsWs c = false) → commaOkB t = true →
      replCommaCloser t = t) ∧
    (∀ rest : Str, rest.length ≤ n → (∀ c ∈ rest, isJsWs c = false) →
      commaOkB (',' :: rest) = true → replCommaCloserWs [] rest = ',' :: rest)
  | 0 => by
    constructor
    · intro t hle _ _
      match t, hle with
      | [], _ => simp [replCommaCloser]
    · intro rest hle _ _
      match rest, hle with
      | [], _ => simp [replCommaCloserWs]
  | Nat.succ n => by
    obtain ⟨ihCC, ihWs⟩ := replCC_pair n
    constructor
    · intro t hle hws hcc
      match t with
      | [] => simp [replCommaCloser]
      | c :: rest =>
        have hlen : rest.length ≤ n := by simpa using hle
        have hwsr : ∀ x ∈ rest, isJsWs x = false := fun x hx => hws x (by simp [hx])
        by_cases hc : c = ','
        · subst hc
          rw [show replCommaCloser (',' :: rest) = replCommaCloserWs [] rest by
            simp [replCommaCloser]]
          exact ihWs rest hlen hwsr hcc
        · rw [show replCommaCloser (c :: rest) = c :: replCommaCloser rest by
            simp [replCommaCloser, hc]]
          have hccr : commaOkB rest = true := by
            match rest with
            | [] => rfl
            | b :: r2 => exact commaOkB_tail hcc
          rw [ihCC rest hlen hwsr hccr]
    · intro rest hle hws hcc
      match rest with
      | [] => simp [replCommaCloserWs]
      | d :: r2 =>
        have hlen : r2.length ≤ n := by simpa using hle
        have hwsr : ∀ x ∈ r2, isJsWs x = false := fun x hx => hws x (by simp [hx])
        have hd : isJsWs d = false := hws d (by simp)
        have hnd : ¬(d = ']' ∨ d = '}') := commaOkB_head hcc
        by_cases hdc : d = ','
        · subst hdc
          rw [show replCommaCloserWs [] (',' :: r2) = ',' :: replCommaCloserWs [] r2 by
            simp [replCommaCloserWs, hd, hnd]]
          rw [ihWs r2 hlen hwsr (commaOkB_tail hcc)]
        · rw [show replCommaCloserWs [] (d :: r2) = ',' :: d :: replCommaCloser r2 by
            simp [replCommaCloserWs, hd, hnd, hdc]]
          have hccr : commaOkB r2 = true := by
            match r2 with
            | [] => rfl
            | b :: r3 => exact commaOkB_tail (commaOkB_tail hcc)
          rw [ihCC r2 hlen hwsr hccr]

theorem replCommaCloser_noop (t : Str) (hws : ∀ c ∈ t, isJsWs c = false)
    (hcc : commaOkB t = true) : replCommaCloser t = t :=
  (replCC_pair t.length).1 t (Nat.le_refl _) hws hcc

theorem replQC_triple : (n : Nat) →
    (∀ t : Str, t.length ≤ n → (∀ c ∈ t, isJsWs c = false) → replQuoteColon t = t) ∧
    (∀ rest : Str, rest.length ≤ n → (∀ c ∈ rest, isJsWs c = false) →
      replQuoteColonQ [] rest = '"' :: rest) ∧
    (∀ rest : Str, rest.length ≤ n → (∀ c ∈ rest, isJsWs c = false) →
      replQuoteColonC [] [] rest = '"' :: ':' :: rest)
  | 0 => by
    refine ⟨?_, ?_, ?_⟩
    · intro t hle _
      match t, hle with
      | [], _ => simp [replQuoteColon]
    · intro rest hle _
      match rest, hle with
      | [], _ => simp [replQuoteColonQ]
    · intro rest hle _
      match rest, hle with
      | [], _ => simp [replQuoteColonC]
  | Nat.succ n => by
    obtain ⟨ihT, ihQ, ihC⟩ := replQC_triple n
    refine ⟨?_, ?_, ?_⟩
    · intro t hle hws
      match t with
      | [] => simp [replQuoteColon]
      | c :: rest =>
        have hlen : rest.length ≤ n := by simpa using hle
        have hwsr : ∀ x ∈ rest, isJsWs x = false := fun x hx => hws x (by simp [hx])
        by_cases hq : c = '"'
        · subst hq
          rw [show replQuoteColon ('"' :: rest) = replQuoteColonQ [] rest by
            simp [replQuoteColon]]
          exact ihQ rest hlen hwsr
        · rw [show replQuoteColon (c :: rest) = c :: replQuoteColon rest by
            simp [replQuoteColon, hq]]
          rw [ihT rest hlen hwsr]
    · intro rest hle hws
      match rest with
      | [] => simp [replQuoteColonQ]
      | c :: r2 =>
        have hlen : r2.length ≤ n := by simpa using hle
        have hwsr : ∀ x ∈ r2, isJsWs x = false := fun x hx => hws x (by simp [hx])
        have hc : isJsWs c = false := hws c (by simp)
        by_cases hcol : c = ':'
        · subst hcol
          rw [show replQuoteColonQ [] (':' :: r2) = replQuoteColonC [] [] r2 by
            simp [replQuoteColonQ, hc]]
          exact ihC r2 hlen hwsr
        · by_cases hq : c = '"'
          · subst hq
            rw [show replQuoteColonQ [] ('"' :: r2) = '"' :: replQuoteColonQ [] r2 by
              simp [replQuoteColonQ, hc, hcol]]
            rw [ihQ r2 hlen hwsr]
          · rw [show replQuoteColonQ [] (c :: r2) = '"' :: c :: replQuoteColon r2 by
              simp [replQuoteColonQ, hc, hcol, hq]]
            rw [ihT r2 hlen hwsr]
    · intro rest hle hws
      match rest with
      | [] => simp [replQuoteColonC]
      | c :: r2 =>
        have hlen : r2.length ≤ n := by simpa using hle
        have hwsr : ∀ x ∈ r2, isJsWs x = false := fun x hx => hws x (by simp [hx])
        have hc : isJsWs c = false := hws c (by simp)
        by_cases hq : c = '"'
        · subst hq
          rw [show replQuoteColonC [] [] ('"' :: r2) = '"' :: ':' :: '"' :: replQuoteColon r2 by
            simp [replQuoteColonC, hc]]
          rw [ihT r2 hlen hwsr]
        · rw [show replQuoteColonC [] [] (c :: r2) = '"' :: ':' :: c :: replQuoteColon r2 by
            simp [replQuoteColonC, hc, hq]]
          rw [ihT r2 hlen hwsr]

theorem replQuoteColon_noop (t : Str) (hws : ∀ c ∈ t, isJsWs c = false) :
    replQuoteColon t = t :=
  (replQC_triple t.length).1 t (Nat.le_refl _) hws

theorem postprocess_noop (t : Str) (hws : ∀ c ∈ t, isJsWs c = false)
    (hcc : commaOkB t = true) : postprocess t = t := by
  unfold postprocess
  have hmap : t.map (fun c => if c = '\n' ∨ c = '\r' then ' ' else c) = t := by
    apply map_noop
    intro c hc
    have := hws c hc
    have hn : ¬(c = '\n' ∨ c = '\r') := by
      intro h
      rcases h with h | h <;> simp [h, isJsWs] at this
    simp [hn]
  rw [hmap, replCommaCloser_noop t hws hcc, replQuoteColon_noop t hws]

theorem stripFenceStart_noop {t : Str} (h : t.head? = some '{' ∨ t.head? = some '[') :
    stripFenceStart t = t := by
  match t, h with
  | c :: rest, h =>
    have hc : c = '{' ∨ c = '[' := by
      rcases h with h | h <;> simp at h <;> simp [h]
    unfold stripFenceStart
    rw [if_neg]
    intro hcon
    rcases hc with hc | hc <;> subst hc <;>
      simp [List.take, backtick, Char.ofNat] at hcon

theorem stripFenceEnd_noop {t : Str} (h : t.getLast? ≠ some backtick) :
    stripFenceEnd t = t := by
  unfold stripFenceEnd
  rw [if_neg]
  intro hcon
  match ht : t.reverse with
  | [] => rw [ht] at hcon; simp at hcon
  | c :: r2 =>
    rw [ht] at hcon
    simp [List.take] at hcon
    apply h
    rw [← List.head?_reverse, ht]
    simp [hcon.1]

theorem jsonRootIdx_head {t : Str} (h : t.head? = some '{' ∨ t.head? = some '[') :
    jsonRootIdx t = some 0 := by
  match t, h with
  | c :: rest, h =>
    have hc : c = '{' ∨ c = '[' := by
      rcases h with h | h <;> simp at h <;> simp [h]
    unfold jsonRootIdx
    rcases hc with hc | hc <;> subst hc
    · rw [show idxOf? (fun c => c = '{') ('{' :: rest) = some 0 by simp [idxOf?]]
      rw [show idxOf? (fun c => c = '[') ('{' :: rest) =
          (idxOf? (fun c => c = '[') rest).map (· + 1) by simp [idxOf?]]
      cases idxOf? (fun c => c = '[') rest <;> simp
    · rw [show idxOf? (fun c => c = '[') ('[' :: rest) = some 0 by simp [idxOf?]]
      rw [show idxOf? (fun c => c = '{') ('[' :: rest) =
          (idxOf? (fun c => c = '{') rest).map (· + 1) by simp [idxOf?]]
      cases idxOf? (fun c => c = '{') rest <;> simp

/-- Claim C4's amended identity: on whitespace-free, structurally rooted,
scan-exact text with no comma-before-closer, the recovery engine returns
its input unchanged. -/
theorem cleanJson_id (t : Str)
    (hhead : t.head? = some '{' ∨ t.head? = some '[')
    (hlast : t.getLast? ≠ some backtick)
    (hws : ∀ c ∈ t, isJsWs c = false)
    (hcc : commaOkB t = true)
    (hscan : scanCutLen t = some t.length) :
    cleanJsonString t = t := by
  have hne : t ≠ [] := by
    intro he
    subst he
    rcases hhead with h | h <;> simp at h
  unfold cleanJsonString
  rw [if_neg (by simpa using hne)]
  have hpre : preprocess t = t := by
    unfold preprocess
    rw [jsTrim_noop hws, stripFenceStart_noop hhead, stripFenceEnd_noop hlast, jsTrim_noop hws]
  show (match jsonRootIdx (preprocess t) with
        | none => emptyObjText
        | some start => recoverFromRoot ((preprocess t).drop start)) = t
  rw [hpre, jsonRootIdx_head hhead]
  simp only [List.drop_zero]
  unfold scanCutLen at hscan
  unfold recoverFromRoot
  match hcut : scanLoop t 0 initScanSt with
  | .cut n st =>
    rw [hcut] at hscan
    simp at hscan
    subst hscan
    show postprocess (List.take t.length t) = t
    rw [List.take_length]
    exact postprocess_noop t hws hcc
  | .stop st => rw [hcut] at hscan; simp at hscan

/-- The source's two `indexOf` calls combined by its conditional pick out
exactly the first occurrence of either structural root character. -/
theorem jsonRootIdx_eq (t : Str) : jsonRootIdx t = idxOf? isStructChar t := by
  induction t with
  | nil => simp [jsonRootIdx, idxOf?]
  | cons c rest ih =>
    by_cases hb : c = '{'
    · subst hb
      unfold jsonRootIdx
      rw [show idxOf? (fun c => c = '{') ('{' :: rest) = some 0 by simp [idxOf?]]
      rw [show idxOf? (fun c => c = '[') ('{' :: rest) =
          (idxOf? (fun c => c = '[') rest).map (· + 1) by simp [idxOf?]]
      rw [show idxOf? isStructChar ('{' :: rest) = some 0 by simp [idxOf?, isStructChar]]
      cases idxOf? (fun c => c = '[') rest <;> simp
    · by_cases hk : c = '['
      · subst hk
        unfold jsonRootIdx
        rw [show idxOf? (fun c => c = '[') ('[' :: rest) = some 0 by simp [idxOf?]]
        rw [show idxOf? (fun c => c = '{') ('[' :: rest) =
            (idxOf? (fun c => c = '{') rest).map (· + 1) by simp [idxOf?]]
        rw [show idxOf? isStructChar ('[' :: rest) = some 0 by simp [idxOf?, isStructChar]]
        cases idxOf? (fun c => c = '{') rest <;> simp
      · unfold jsonRootIdx at ih ⊢
        rw [show idxOf? (fun c => c = '{') (c :: rest) =
            (idxOf? (fun c => c = '{') rest).map (· + 1) by simp [idxOf?, hb]]
        rw [show idxOf? (fun c => c = '[') (c :: rest) =
            (idxOf? (fun c => c = '[') rest).map (· + 1) by simp [idxOf?, hk]]
        rw [show idxOf? isStructChar (c :: rest) =
            (idxOf? isStructChar rest).map (· + 1) by simp [idxOf?, isStructChar, hb, hk]]
        rw [← ih]
        cases h1 : idxOf? (fun c => c = '{') rest <;>
          cases h2 : idxOf? (fun c => c = '[') rest <;> simp
        rename_i i j
        by_cases hij : i < j
        · rw [if_pos hij, if_pos (by omega)]
        · rw [if_neg hij, if_neg (by omega)]

theorem collapseWs_noop {s : Str} (h : ∀ c ∈ s, isJsWs c = false) : collapseWs s = s := by
  induction s with
  | nil => simp [collapseWs]
  | cons c rest ih =>
    have hc : isJsWs c = false := h c (by simp)
    simp only [collapseWs, hc, Bool.false_eq_true, if_false]
    rw [ih (fun x hx => h x (by simp [hx]))]

theorem collapseWs_us {s : Str} (h : ∃ c ∈ s, isJsWs c = true) : '_' ∈ collapseWs s := by
  induction s with
  | nil => simp at h
  | cons c rest ih =>
    by_cases hc : isJsWs c = true
    · simp [collapseWs, hc]
    · simp only [collapseWs, hc, if_false]
      rcases h with ⟨x, hx, hxw⟩
      rcases List.mem_cons.mp hx with he | hm
      · subst he; exact absurd hxw hc
      · exact List.mem_cons_of_mem _ (ih ⟨x, hm, hxw⟩)

theorem keyEquiv (s key : Str) (hkw : ∀ c ∈ key, isJsWs c = false) (hku : '_' ∉ key) :
    (collapseWs s = key) = (s = key) := by
  apply propext
  constructor
  · intro h
    have hsw : ∀ c ∈ s, isJsWs c = false := by
      intro c hc
      by_contra hb
      have : '_' ∈ key := h ▸ collapseWs_us ⟨c, hc, by simpa using hb⟩
      exact hku this
    rw [← collapseWs_noop hsw]
    exact h
  · intro h
    subst h
    exact collapseWs_noop hkw

theorem keyframeTable_collapse (dKey s : Str) :
    keyframeTable dKey (collapseWs s) = keyframeTable dKey s := by
  unfold keyframeTable
  simp only [keyEquiv s (("concise").toList) (by decide) (by decide),
    keyEquiv s (("standard").toList) (by decide) (by decide),
    keyEquiv s (("detailed").toList) (by decide) (by decide)]

theorem jsOr_default {f : Option Json} {d : Json} (h : propDefaulted (some f) = true) :
    jsOr f d = d := by
  match f with
  | none => rfl
  | some v =>
    simp only [propDefaulted, Bool.not_eq_true'] at h
    simp [jsOr, h]

theorem vpArray_eq {data : Json} {vpF : Option Json}
    (h : jsAccess data (("visualPrompts").toList) = some vpF) :
    asArray vpF = vpArray data := by
  match data with
  | .null => simp [jsAccess] at h
  | .obj kvs =>
    simp only [jsAccess, Option.some.injEq] at h
    subst h
    rfl
  | .bool b => simp only [jsAccess, Option.some.injEq] at h; subst h; rfl
  | .num n => simp only [jsAccess, Option.some.injEq] at h; subst h; rfl
  | .str s => simp only [jsAccess, Option.some.injEq] at h; subst h; rfl
  | .arr xs => simp only [jsAccess, Option.some.injEq] at h; subst h; rfl

/-- Inversion of a successful normalization: the request-derived fields,
the continuity tokens, the truncated prompt list, and the defaulting
behavior of each `||`-guarded field. -/
theorem normalize_inv {data : Json} {input : UserInput} {pkg : ProductionPackage}
    (h : normalizePackage data input = some pkg) :
    pkg.metadata.visualStyle = input.visualStyle ∧
    pkg.metadata.aspect = input.aspect ∧
    pkg.metadata.duration = input.videoDuration ∧
    pkg.cst = [] ∧ pkg.bst = [] ∧ pkg.gst = [] ∧
    pkg.vst = (resolveStyle input.visualStyle).recommended_vst ∧
    pkg.visualPrompts =
      (vpArray data).take (getRequiredKeyframeCount input.videoDuration input.sceneDensity) ∧
    (propDefaulted (optChain data (("metadata").toList) (("topic").toList)) = true →
      pkg.metadata.topic = .str (input.script.take 30)) ∧
    (propDefaulted (optChain data (("metadata").toList) (("mood").toList)) = true →
      pkg.metadata.mood = .str (("Cinematic").toList)) ∧
    (propDefaulted (jsAccess data (("seo").toList)) = true → pkg.seo = defaultSeo) ∧
    (propDefaulted (jsAccess data (("story").toList)) = true → pkg.story = .str input.script) := by
  unfold normalizePackage at h
  simp only [bind, Option.bind_eq_some, Option.pure_def, Option.some.injEq] at h
  obtain ⟨vpF, hvp, h⟩ := h
  obtain ⟨topicF, htp, h⟩ := h
  obtain ⟨moodF, hmd, h⟩ := h
  obtain ⟨seoF, hseo, h⟩ := h
  obtain ⟨storyF, hsty, h⟩ := h
  obtain ⟨titlesF, hti, h⟩ := h
  obtain ⟨titles, hT, h⟩ := h
  subst h
  refine ⟨rfl, rfl, rfl, rfl, rfl, rfl, rfl, ?_, ?_, ?_, ?_, ?_⟩
  · show (asArray vpF).take _ = _
    rw [vpArray_eq hvp]
  · intro hd; rw [htp] at hd; exact jsOr_default hd
  · intro hd; rw [hmd] at hd; exact jsOr_default hd
  · intro hd; rw [hseo] at hd; exact jsOr_default hd
  · intro hd; rw [hsty] at hd; exact jsOr_default hd

theorem normalize_empty (input : UserInput) :
    normalizePackage (.obj []) input = some (defaultsPkg input) := by
  have htake : ∀ n : Nat, List.take n ([] : List Json) = [] := fun n => List.take_nil
  unfold normalizePackage
  simp only [jsAccess, lookupLast, List.foldl_nil, optChain, titlesOf, asArray, htake,
    fallbackTitles, List.mapM_nil, bind, Option.bind_some, Option.bind]
  simp [jsOr, defaultsPkg]

/-! ## Round trip of the canonical serializer through the parser -/

theorem digitChar_isDigit : ∀ d : Nat, d < 10 → (Char.ofNat (48 + d)).isDigit = true := by
  decide

theorem digitChar_val : ∀ d : Nat, d < 10 → (Char.ofNat (48 + d)).toNat - 48 = d := by
  decide

theorem natDigitsAux_digits : ∀ fuel n, ∀ c ∈ natDigitsAux fuel n, c.isDigit = true := by
  intro fuel
  induction fuel with
  | zero => intro n c hc; simp [natDigitsAux] at hc
  | succ fuel ih =>
    intro n c hc
    by_cases hn : n = 0
    · simp [natDigitsAux, hn] at hc
    · simp only [natDigitsAux, hn, if_false, List.mem_append, List.mem_singleton] at hc
      rcases hc with hc | hc
      · exact ih _ c hc
      · subst hc
        exact digitChar_isDigit _ (Nat.mod_lt _ (by norm_num))

theorem natDigitsAux_fold : ∀ fuel n a, n ≤ fuel →
    List.foldl (fun acc c => acc * 10 + (c.toNat - 48)) a (natDigitsAux fuel n) =
      a * 10 ^ (natDigitsAux fuel n).length + n := by
  intro fuel
  induction fuel with
  | zero =>
    intro n a hle
    have : n = 0 := Nat.le_zero.mp hle
    subst this
    simp [natDigitsAux]
  | succ fuel ih =>
    intro n a hle
    by_cases hn : n = 0
    · subst hn; simp [natDigitsAux]
    · have hdiv : n / 10 ≤ fuel := by
        have := Nat.div_lt_self (Nat.pos_of_ne_zero hn) (by norm_num : 1 < 10)
        omega
      simp only [natDigitsAux, hn, if_false, List.foldl_append, List.foldl_cons,
        List.foldl_nil, List.length_append, List.length_singleton]
      rw [ih _ a hdiv]
      rw [digitChar_val _ (Nat.mod_lt _ (by norm_num))]
      have hpow : 10 ^ ((natDigitsAux fuel (n / 10)).length + 1) =
          10 ^ (natDigitsAux fuel (n / 10)).length * 10 := pow_succ 10 _
      rw [hpow, Nat.add_mul, Nat.mul_assoc]
      omega

theorem natDigits_digits (n : Nat) : ∀ c ∈ natDigits n, c.isDigit = true := by
  unfold natDigits
  by_cases hn : n = 0
  · simp [hn]
  · simp only [hn, if_false]
    exact natDigitsAux_digits n n

theorem natDigits_ne_nil (n : Nat) : natDigits n ≠ [] := by
  unfold natDigits
  by_cases hn : n = 0
  · simp [hn]
  · simp only [hn, if_false]
    match hfuel : n, hn with
    | Nat.succ m, _ =>
      simp [natDigitsAux]

theorem natDigits_fold (n : Nat) :
    List.foldl (fun acc c => acc * 10 + (c.toNat - 48)) 0 (natDigits n) = n := by
  unfold natDigits
  by_cases hn : n = 0
  · simp [hn]
  · simp only [hn, if_false]
    rw [natDigitsAux_fold n n 0 (Nat.le_refl n)]
    simp

theorem takeWhile_append_of_all {p : Char → Bool} {A rest : Str}
    (hA : ∀ c ∈ A, p c = true) (hrest : ∀ c, rest.head? = some c → p c = false) :
    (A ++ rest).takeWhile p = A ∧ (A ++ rest).dropWhile p = rest := by
  induction A with
  | nil =>
    simp only [List.nil_append]
    match rest with
    | [] => simp
    | c :: r2 =>
      have := hrest c rfl
      simp [List.takeWhile_cons, List.dropWhile_cons, this]
  | cons a A' ih =>
    have ha : p a = true := hA a (by simp)
    obtain ⟨ht, hd⟩ := ih (fun c hc => hA c (by simp [hc]))
    simp [List.takeWhile_cons, List.dropWhile_cons, ha, ht, hd]

theorem parseNatNum_ser {m : Nat} {rest : Str} (h : noDigitHead rest = true) :
    parseNatNum (natDigits m ++ rest) = some (m, rest) := by
  have hrest : ∀ c, rest.head? = some c → c.isDigit = false := by
    intro c hc
    match rest, hc with
    | c :: r2, rfl =>
      simp only [noDigitHead, Bool.not_eq_true'] at h
      exact h
  obtain ⟨ht, hd⟩ := takeWhile_append_of_all (natDigits_digits m) hrest
  unfold parseNatNum
  rw [show (fun c => c.isDigit) = fun c : Char => c.isDigit from rfl]
  rw [ht, hd]
  have hne : natDigits m ≠ [] := natDigits_ne_nil m
  rw [if_neg (by simpa [List.isEmpty_iff] using hne)]
  rw [natDigits_fold m]

theorem parseStringBody_ser : ∀ (s rest : Str), (∀ c ∈ s, safeChar c = true) →
    parseStringBody (s ++ '"' :: rest) = some (s, rest) := by
  intro s
  induction s with
  | nil =>
    intro rest _
    simp only [List.nil_append]
    unfold parseStringBody
    simp
  | cons c s' ih =>
    intro rest hs
    have hc : safeChar c = true := hs c (by simp)
    simp only [safeChar, Bool.and_eq_true, Bool.not_eq_true', decide_eq_true_eq] at hc
    obtain ⟨⟨⟨⟨⟨⟨⟨⟨⟨⟨-, hq⟩, hbs⟩, -⟩, -⟩, -⟩, -⟩, -⟩, -⟩, -⟩, h32⟩ := hc
    have hq2 : ¬c = '"' := by simpa using hq
    have hbs2 : ¬c = '\\' := by simpa using hbs
    simp only [List.cons_append]
    unfold parseStringBody
    rw [if_neg hq2, if_neg hbs2, if_neg (by omega)]
    rw [ih rest (fun x hx => hs x (by simp [hx]))]
    rfl

theorem digit_not_ws {c : Char} (h : c.isDigit = true) :
    isJsWs c = false ∧ isJsonWs c = false := by
  constructor
  · by_contra hb
    simp only [Bool.not_eq_false, isJsWs, Bool.or_eq_true, decide_eq_true_eq] at hb
    rcases hb with ((((h1 | h1) | h1) | h1) | h1) | h1 <;> subst h1 <;>
      exact absurd h (by decide)
  · by_contra hb
    simp only [Bool.not_eq_false, isJsonWs, Bool.or_eq_true, decide_eq_true_eq] at hb
    rcases hb with ((h1 | h1) | h1) | h1 <;> subst h1 <;> exact absurd h (by decide)

theorem digit_ne {c : Char} (h : c.isDigit = true) :
    c ≠ '{' ∧ c ≠ '[' ∧ c ≠ '"' ∧ c ≠ 't' ∧ c ≠ 'f' ∧ c ≠ 'n' ∧ c ≠ '-' ∧
    c ≠ ']' ∧ c ≠ '}' ∧ c ≠ ',' := by
  refine ⟨?_, ?_, ?_, ?_, ?_, ?_, ?_, ?_, ?_, ?_⟩ <;>
    (intro he; subst he; exact absurd h (by decide))

theorem szV_pos : ∀ v : Json, 1 ≤ szV v := by
  intro v
  match v with
  | .null => simp [szV]
  | .bool _ => simp [szV]
  | .num _ => simp [szV]
  | .str _ => simp [szV]
  | .arr xs => simp [szV]
  | .obj kvs => simp [szV]

theorem serialize_head_start : ∀ v : Json, ∃ c t, serialize v = c :: t ∧
    isJsonWs c = false ∧ c ≠ ']' ∧ c ≠ '}' ∧ c ≠ ',' := by
  intro v
  match v with
  | .null => exact ⟨'n', _, rfl, by decide, by decide, by decide, by decide⟩
  | .bool true => exact ⟨'t', _, rfl, by decide, by decide, by decide, by decide⟩
  | .bool false => exact ⟨'f', _, rfl, by decide, by decide, by decide, by decide⟩
  | .str s => exact ⟨'"', _, rfl, by decide, by decide, by decide, by decide⟩
  | .arr xs => exact ⟨'[', _, rfl, by decide, by decide, by decide, by decide⟩
  | .obj kvs => exact ⟨'{', _, rfl, by decide, by decide, by decide, by decide⟩
  | .num n =>
    show ∃ c t, intToStr n = c :: t ∧ _
    unfold intToStr
    by_cases hneg : n < 0
    · exact ⟨'-', _, by rw [if_pos hneg], by decide, by decide, by decide, by decide⟩
    · rw [if_neg hneg]
      match hnd : natDigits n.toNat with
      | [] => exact absurd hnd (natDigits_ne_nil _)
      | d :: t =>
        have hd : d.isDigit = true := natDigits_digits n.toNat d (by rw [hnd]; simp)
        obtain ⟨-, hws⟩ := digit_not_ws hd
        obtain ⟨-, -, -, -, -, -, -, h1, h2, h3⟩ := digit_ne hd
        exact ⟨d, t, rfl, hws, h1, h2, h3⟩

/-! ## The claims -/

/-- Claim C1, counterexample: the claim asserts that `recoverJson`
(`cleanJsonString`) always returns text a standard JSON parser accepts,
and in particular that it does so on the mid-string-truncated input
`{"a":"hello wor`.  On exactly that input the returned text does not
parse. -/
theorem claimC1_counterexample : parseJson (cleanJsonString c1input) = none := rfl

/-- Claim C1, amended: on the mid-string-truncated input `{"a":"hello wor`
no safe-cut boundary is ever recorded, so the engine's fallback appends a
single `}` without closing the open quote; the result is the text
`{"a":"hello wor}`, which still contains an unterminated string literal
and is rejected by a standard JSON parser.  Parseability of the repaired
text is therefore not guaranteed for every input; the residual failure is
left to the caller's retry tier. -/
theorem claimC1 : cleanJsonString c1input = c1output ∧ parseJson c1output = none :=
  ⟨rfl, rfl⟩

/-- Claim C2: for the truncated-object input `{"a":1,"b":[1,2,` the
engine cuts back to the last recorded safe point, strips the trailing
comma, appends the closing brackets and braces needed to balance
(yielding `{"a":1,"b":[1,2]}`), and the result parses with field `a`
equal to 1.  The first conjunct states the mechanism in general: whenever
the scan stops with an open structure and a recorded safe point, the
result is exactly the repair at that safe point. -/
theorem claimC2 :
    (∀ (cleaned : Str) (st : ScanSt) (ls : Nat),
      scanLoop cleaned 0 initScanSt = .stop st →
      (0 < st.brace ∨ 0 < st.bracket ∨ st.ins = true) →
      st.lastSafe = some ls →
      recoverFromRoot cleaned = postprocess (repairAtSafe cleaned ls)) ∧
    cleanJsonString c2input = c2output ∧
    parseJson c2output = some c2value ∧
    getField c2value (("a").toList) = some (.num 1) := by
  refine ⟨?_, rfl, rfl, rfl⟩
  intro cleaned st ls hstop hpos hls
  unfold recoverFromRoot
  rw [hstop]
  show (if 0 < st.brace ∨ 0 < st.bracket ∨ st.ins = true then
          match st.lastSafe with
          | some ls => postprocess (repairAtSafe cleaned ls)
          | none => postprocess (if cleaned.getLast? = some '}' then cleaned else cleaned ++ ['}'])
        else postprocess cleaned) = postprocess (repairAtSafe cleaned ls)
  rw [if_pos hpos, hls]

theorem claimC2_witness :
    recoverFromRoot c2input = postprocess (repairAtSafe c2input 15) :=
  claimC2.1 c2input ⟨1, 1, false, false, some 15⟩ 15 rfl (by left; decide) rfl

/-- Claim C3: for the stray-closer input `{"a":1}}}` the brace counter
returns to exactly zero outside a string at the first `}`, the text is
truncated there, and the excess closers are ignored: the result is
`{"a":1}` and parses to the object with `a = 1`.  The first conjunct
states the mechanism in general: whenever the zero-balance exit fires at
cut position `n`, the engine returns the post-processed first `n`
characters. -/
theorem claimC3 :
    (∀ (cleaned : Str) (n : Nat) (st : ScanSt),
      scanLoop cleaned 0 initScanSt = .cut n st →
      recoverFromRoot cleaned = postprocess (cleaned.take n)) ∧
    cleanJsonString c3input = c3output ∧
    parseJson c3output = some c3value := by
  refine ⟨?_, rfl, rfl⟩
  intro cleaned n st hcut
  unfold recoverFromRoot
  rw [hcut]

theorem claimC3_witness :
    recoverFromRoot c3input = postprocess (c3input.take 7) :=
  claimC3.1 c3input 7 ⟨0, 0, false, false, some 6⟩ rfl

/-- Claim C4, counterexample: the claim asserts that recovery parses to a
deep-equal value on every valid JSON text.  The valid text `{"k":",]"}`
is corrupted by the `,\s*([\]}])` post-processing step, which rewrites
the `,]` inside the string literal: the recovered text parses to
`{"k":"]"}`, not deep-equal to the original value. -/
theorem claimC4_counterexample :
    parseJson c4text = some c4valueOrig ∧
    parseJson (cleanJsonString c4text) = some c4valueClean ∧
    c4valueOrig ≠ c4valueClean ∧
    parseJson (cleanJsonString c4text) ≠ parseJson c4text :=
  ⟨rfl, rfl, by decide, by decide⟩

/-- Claim C5: for every input string, the engine locates the structural
root as the first occurrence of either `{` or `[` in the preprocessed
text, discards everything before it, and returns the empty-object text
`{}` when neither occurs; in particular an input whose first structural
character is `[` is recovered from that bracket (here `xx[1,2]` parses to
the array `[1,2]`), not treated as unrecoverable. -/
theorem claimC5 :
    (∀ raw : Str,
      cleanJsonString raw =
        match idxOf? isStructChar (preprocess raw) with
        | none => emptyObjText
        | some i => recoverFromRoot ((preprocess raw).drop i)) ∧
    cleanJsonString c5noStruct = emptyObjText ∧
    parseJson (cleanJsonString c5arrInput) = some (.arr [.num 1, .num 2]) := by
  refine ⟨?_, rfl, rfl⟩
  intro raw
  unfold cleanJsonString
  by_cases he : raw.isEmpty
  · rw [if_pos he]
    have hnil : raw = [] := by
      match raw with
      | [] => rfl
      | c :: rest => simp [List.isEmpty] at he
    subst hnil
    rfl
  · rw [if_neg he]
    show (match jsonRootIdx (preprocess raw) with
          | none => emptyObjText
          | some start => recoverFromRoot ((preprocess raw).drop start)) = _
    rw [jsonRootIdx_eq]

/-- Claim C6: in `generateMoviePackage` of src/services/geminiService.ts,
when the recovered text fails to parse the caller applies exactly one
bounded retry — parsing the text with a single `}` appended — and only
when that also fails raises the distinct structural-failure error with
its scope-reduction guidance; success is possible on exactly those two
attempts and no others. -/
theorem claimC6 (raw : Str) :
    (isOkE (parseStageV2 raw) = true ↔
      (parseJson (cleanJsonStringV2 raw)).isSome = true ∨
      (parseJson (cleanJsonStringV2 raw ++ ['}'])).isSome = true) ∧
    (∀ v, parseJson (cleanJsonStringV2 raw) = some v → parseStageV2 raw = .ok v) ∧
    (∀ v, parseJson (cleanJsonStringV2 raw) = none →
      parseJson (cleanJsonStringV2 raw ++ ['}']) = some v → parseStageV2 raw = .ok v) ∧
    (parseJson (cleanJsonStringV2 raw) = none →
      parseJson (cleanJsonStringV2 raw ++ ['}']) = none →
      parseStageV2 raw = .error structuralFailureMsgV2) := by
  unfold parseStageV2
  cases h1 : parseJson (cleanJsonStringV2 raw) <;>
    cases h2 : parseJson (cleanJsonStringV2 raw ++ ['}']) <;>
    simp [isOkE, h1, h2]

theorem claimC6_witness :
    parseStageV2 c6failRaw = .error structuralFailureMsgV2 ∧
    parseJson (cleanJsonStringV2 c6retryRaw) = none ∧
    parseStageV2 c6retryRaw =
      .ok (.obj [(("a").toList, .obj [(("b").toList, .num 1)])]) :=
  ⟨(claimC6 c6failRaw).2.2.2 rfl rfl, rfl,
   (claimC6 c6retryRaw).2.2.1 (.obj [(("a").toList, .obj [(("b").toList, .num 1)])]) rfl rfl⟩

/-- Claim C7: `getRequiredKeyframeCount` equals the specification's
normalized lookup — both labels normalized case-insensitively with
whitespace runs replaced by underscore, the table entry returned when
both normalized labels match, and the fixed default 8 otherwise (the
function is total, so it never throws); in particular
`("1 Minute", "Standard")` yields 8 and the unknown combination
`("17 Minutes", "Extreme")` yields 8. -/
theorem claimC7 :
    (∀ d den : Str, getRequiredKeyframeCount d den = specKeyframeCount d den) ∧
    getRequiredKeyframeCount (("1 Minute").toList) (("Standard").toList) = 8 ∧
    getRequiredKeyframeCount (("17 Minutes").toList) (("Extreme").toList) = 8 := by
  refine ⟨?_, rfl, rfl⟩
  intro d den
  show (keyframeTable (collapseWs (lowerStr d)) (lowerStr den)).getD 8 =
    (keyframeTable (specNormalizeLabel d) (specNormalizeLabel den)).getD 8
  unfold specNormalizeLabel
  rw [keyframeTable_collapse]

/-- Claim C8: on every successful normalization, the returned
`visualPrompts` is exactly the first `requiredKeyframeCount` entries of
the parsed array (a prefix in original order); if the parsed array is
longer the result has exactly the required count, if not longer it is
returned whole (no padding), and its length never exceeds the required
count. -/
theorem claimC8 (data : Json) (input : UserInput) (pkg : ProductionPackage)
    (h : normalizePackage data input = some pkg) :
    pkg.visualPrompts =
      (vpArray data).take (getRequiredKeyframeCount input.videoDuration input.sceneDensity) ∧
    pkg.visualPrompts.length ≤ getRequiredKeyframeCount input.videoDuration input.sceneDensity ∧
    ((vpArray data).length > getRequiredKeyframeCount input.videoDuration input.sceneDensity →
      pkg.visualPrompts.length = getRequiredKeyframeCount input.videoDuration input.sceneDensity) ∧
    ((vpArray data).length ≤ getRequiredKeyframeCount input.videoDuration input.sceneDensity →
      pkg.visualPrompts = vpArray data) := by
  obtain ⟨-, -, -, -, -, -, -, hvp, -⟩ := normalize_inv h
  refine ⟨hvp, ?_, ?_, ?_⟩
  · rw [hvp, List.length_take]
    omega
  · intro hgt
    rw [hvp, List.length_take]
    omega
  · intro hle
    rw [hvp]
    exact List.take_of_length_le hle

theorem claimC8_witness :
    (normalizePackage c8data input0).map (fun p => p.visualPrompts.length) = some 8 := by
  cases hp : normalizePackage c8data input0 with
  | none => exact absurd hp (by decide)
  | some pkg =>
    have h := (claimC8 c8data input0 pkg hp).2.2.1 (by decide)
    have h8 : getRequiredKeyframeCount input0.videoDuration input0.sceneDensity = 8 := by decide
    simp [Option.map, h, h8]

/-- Claim C9, counterexample: the claim asserts the documented defaults
are substituted even when an enclosing object such as `seo` is present
with the individual field missing.  For the parsed object `{"seo":{}}`
the normalizer passes the truthy empty `seo` object through unchanged:
the result's `seo` is `{}` and its `bestTitle` is absent, not the
literal `Untitled`. -/
theorem claimC9_counterexample :
    (normalizePackage c9data input0).map (fun p => p.seo) = some (.obj []) ∧
    (normalizePackage c9data input0).map
      (fun p => getField p.seo (("bestTitle").toList)) = some none :=
  ⟨rfl, rfl⟩

/-- Claim C9, amended: on every successful normalization the documented
defaults are substituted for fields that are absent, null, or falsy —
topic becomes the first 30 characters of the user script, mood the
literal `Cinematic`, story the user script, and the SEO bundle (with
`Untitled` title and empty alt-titles) is substituted as a whole when
the `seo` field itself is absent or falsy, but missing fields inside a
present `seo` object are not filled individually.  The fully empty
object `{}` yields the fully defaulted package, and the visual-prompts
length never exceeds the required keyframe count. -/
theorem claimC9 (data : Json) (input : UserInput) (pkg : ProductionPackage)
    (h : normalizePackage data input = some pkg) :
    (propDefaulted (optChain data (("metadata").toList) (("topic").toList)) = true →
      pkg.metadata.topic = .str (input.script.take 30)) ∧
    (propDefaulted (optChain data (("metadata").toList) (("mood").toList)) = true →
      pkg.metadata.mood = .str (("Cinematic").toList)) ∧
    (propDefaulted (jsAccess data (("seo").toList)) = true → pkg.seo = defaultSeo) ∧
    (propDefaulted (jsAccess data (("story").toList)) = true → pkg.story = .str input.script) ∧
    pkg.visualPrompts.length ≤ getRequiredKeyframeCount input.videoDuration input.sceneDensity ∧
    (data = .obj [] → pkg = defaultsPkg input) := by
  obtain ⟨-, -, -, -, -, -, -, hvp, htopic, hmood, hseo, hstory⟩ := normalize_inv h
  refine ⟨htopic, hmood, hseo, hstory, ?_, ?_⟩
  · rw [hvp, List.length_take]
    omega
  · intro hd
    subst hd
    rw [normalize_empty input] at h
    exact (Option.some.inj h).symm

theorem claimC9_witness :
    (normalizePackage (.obj []) input0).map (fun p => p.metadata.topic) =
      some (.str (input0.script.take 30)) ∧
    (normalizePackage (.obj []) input0).map (fun p => p.seo) = some defaultSeo := by
  cases hp : normalizePackage (.obj []) input0 with
  | none => exact absurd hp (by decide)
  | some pkg =>
    obtain ⟨htopic, -, hseo, -, -, hall⟩ := claimC9 (.obj []) input0 pkg hp
    refine ⟨?_, ?_⟩
    · simp [Option.map, htopic (by decide)]
    · simp [Option.map, hseo (by decide)]

/-- Claim C10: in every successfully returned package, the fields
`metadata.visualStyle`, `metadata.aspectRatio`, `metadata.duration`,
`cst`, `bst`, `gst` and `vst` depend only on the request and resolved
style preset, never on the model's raw completion: for any two raw
completions processed under the same request they agree, with `cst`,
`bst` and `gst` the empty string and `vst` the resolved preset's
recommended continuity token. -/
theorem claimC10 (input : UserInput) (r1 r2 : Str) (p1 p2 : ProductionPackage)
    (h1 : processCompletion input r1 = some p1)
    (h2 : processCompletion input r2 = some p2) :
    p1.metadata.visualStyle = p2.metadata.visualStyle ∧
    p1.metadata.aspect = p2.metadata.aspect ∧
    p1.metadata.duration = p2.metadata.duration ∧
    p1.cst = p2.cst ∧ p1.bst = p2.bst ∧ p1.gst = p2.gst ∧ p1.vst = p2.vst ∧
    p1.cst = [] ∧ p1.bst = [] ∧ p1.gst = [] ∧
    p1.vst = (resolveStyle input.visualStyle).recommended_vst ∧
    p1.metadata.visualStyle = input.visualStyle ∧
    p1.metadata.aspect = input.aspect ∧
    p1.metadata.duration = input.videoDuration := by
  have inv : ∀ (r : Str) (p : ProductionPackage), processCompletion input r = some p →
      p.metadata.visualStyle = input.visualStyle ∧ p.metadata.aspect = input.aspect ∧
      p.metadata.duration = input.videoDuration ∧ p.cst = [] ∧ p.bst = [] ∧ p.gst = [] ∧
      p.vst = (resolveStyle input.visualStyle).recommended_vst := by
    intro r p hp
    unfold processCompletion at hp
    cases hd : parseJson (cleanJsonString r) with
    | none => rw [hd] at hp; exact absurd hp (by simp)
    | some d =>
      rw [hd] at hp
      obtain ⟨hvs, har, hdur, hcst, hbst, hgst, hvst, -⟩ := normalize_inv hp
      exact ⟨hvs, har, hdur, hcst, hbst, hgst, hvst⟩
  obtain ⟨v1, a1, d1, c1, b1, g1, t1⟩ := inv r1 p1 h1
  obtain ⟨v2, a2, d2, c2, b2, g2, t2⟩ := inv r2 p2 h2
  exact ⟨v1.trans v2.symm, a1.trans a2.symm, d1.trans d2.symm, c1.trans c2.symm,
    b1.trans b2.symm, g1.trans g2.symm, t1.trans t2.symm, c1, b1, g1, t1, v1, a1, d1⟩

theorem claimC10_witness :
    (processCompletion input0 c10raw1).map (fun p => p.vst) =
      (processCompletion input0 c10raw2).map (fun p => p.vst) ∧
    (processCompletion input0 c10raw1).map (fun p => p.vst) =
      some ((resolveStyle input0.visualStyle).recommended_vst) ∧
    (processCompletion input0 c10raw1).map (fun p => p.cst) = some [] := by
  cases hp1 : processCompletion input0 c10raw1 with
  | none => exact absurd hp1 (by decide)
  | some p1 =>
    cases hp2 : processCompletion input0 c10raw2 with
    | none => exact absurd hp2 (by decide)
    | some p2 =>
      obtain ⟨-, -, -, -, -, -, hv, hc, -, -, ht, -⟩ := claimC10 input0 c10raw1 c10raw2 p1 p2 hp1 hp2
      simp [Option.map, hv, hc, ht, hv.symm.trans ht]

theorem skipWs_cons {c : Char} {t : Str} (h : isJsonWs c = false) : skipWs (c :: t) = c :: t := by
  simp [skipWs, List.dropWhile_cons, h]

theorem parseSer_triple : (fuel : Nat) →
    (∀ (v : Json) (rest : Str), safeJson v = true → szV v ≤ fuel → noDigitHead rest = true →
      parseValue fuel (serialize v ++ rest) = some (v, rest)) ∧
    (∀ (xs : List Json) (rest : Str), xs ≠ [] → safeJsonList xs = true → szL xs ≤ fuel →
      parseElems fuel (serializeList xs ++ ']' :: rest) = some (xs, rest)) ∧
    (∀ (kvs : List (Str × Json)) (rest : Str), kvs ≠ [] → safeJsonKvs kvs = true →
      szK kvs ≤ fuel →
      parseMembers fuel (serializeKvs kvs ++ '}' :: rest) = some (kvs, rest))
  | 0 => by
    refine ⟨?_, ?_, ?_⟩
    · intro v rest _ hsz _
      have := szV_pos v
      omega
    · intro xs rest hne _ hsz
      match xs, hne with
      | x :: xs', _ => simp [szL] at hsz
    · intro kvs rest hne _ hsz
      match kvs, hne with
      | (k, v) :: kvs', _ => simp [szK] at hsz
  | Nat.succ fuel => by
    obtain ⟨ihV, ihE, ihM⟩ := parseSer_triple fuel
    refine ⟨?_, ?_, ?_⟩
    · intro v rest hsafe hsz hnd
      match v with
      | .null =>
        show parseValue (fuel + 1) (('n' :: 'u' :: 'l' :: 'l' :: []) ++ rest) =
          some (Json.null, rest)
        simp [parseValue, skipWs, List.dropWhile_cons, isJsonWs]
      | .bool true =>
        show parseValue (fuel + 1) (('t' :: 'r' :: 'u' :: 'e' :: []) ++ rest) =
          some (Json.bool true, rest)
        simp [parseValue, skipWs, List.dropWhile_cons, isJsonWs]
      | .bool false =>
        show parseValue (fuel + 1) (('f' :: 'a' :: 'l' :: 's' :: 'e' :: []) ++ rest) =
          some (Json.bool false, rest)
        simp [parseValue, skipWs, List.dropWhile_cons, isJsonWs]
      | .str s =>
        have hsc : ∀ c ∈ s, safeChar c = true := by
          simp only [safeJson, List.all_eq_true] at hsafe
          exact hsafe
        show parseValue (fuel + 1) (('"' :: s ++ ['"']) ++ rest) = some (Json.str s, rest)
        rw [show ('"' :: s ++ ['"']) ++ rest = '"' :: (s ++ '"' :: rest) by simp]
        unfold parseValue
        rw [skipWs_cons (by decide)]
        simp only []
        rw [if_neg (by decide), if_neg (by decide), if_pos trivial]
        rw [parseStringBody_ser s rest hsc]
        rfl
      | .num n =>
        show parseValue (fuel + 1) (intToStr n ++ rest) = some (Json.num n, rest)
        by_cases hneg : n < 0
        · rw [show intToStr n = '-' :: natDigits (-n).toNat by
            unfold intToStr; rw [if_pos hneg]]
          rw [show ('-' :: natDigits (-n).toNat) ++ rest = '-' :: (natDigits (-n).toNat ++ rest)
            by simp]
          unfold parseValue
          rw [skipWs_cons (by decide)]
          simp only []
          rw [if_neg (by decide), if_neg (by decide), if_neg (by decide), if_neg (by decide),
            if_neg (by decide), if_neg (by decide), if_pos trivial]
          rw [parseNatNum_ser hnd]
          show some (Json.num (-(((-n).toNat : Nat) : Int)), rest) = some (Json.num n, rest)
          have heq : -(((-n).toNat : Nat) : Int) = n := by omega
          rw [heq]
        · rw [show intToStr n = natDigits n.toNat by unfold intToStr; rw [if_neg hneg]]
          match hnd2 : natDigits n.toNat with
          | [] => exact absurd hnd2 (natDigits_ne_nil _)
          | d :: t =>
            have hd : d.isDigit = true := natDigits_digits n.toNat d (by rw [hnd2]; simp)
            obtain ⟨-, hws⟩ := digit_not_ws hd
            obtain ⟨h1, h2, h3, h4, h5, h6, h7, -, -, -⟩ := digit_ne hd
            rw [show (d :: t) ++ rest = d :: (t ++ rest) by simp]
            unfold parseValue
            rw [skipWs_cons hws]
            simp only []
            rw [if_neg h1, if_neg h2, if_neg h3, if_neg h4, if_neg h5, if_neg h6, if_neg h7]
            rw [show d :: (t ++ rest) = (d :: t) ++ rest by simp, ← hnd2]
            rw [parseNatNum_ser hnd]
            show some (Json.num ((n.toNat : Nat) : Int), rest) = some (Json.num n, rest)
            have heq : ((n.toNat : Nat) : Int) = n := by omega
            rw [heq]
      | .arr xs =>
        show parseValue (fuel + 1) (('[' :: serializeList xs ++ [']']) ++ rest) =
          some (Json.arr xs, rest)
        rw [show ('[' :: serializeList xs ++ [']']) ++ rest =
            '[' :: (serializeList xs ++ ']' :: rest) by simp]
        unfold parseValue
        rw [skipWs_cons (by decide)]
        simp only []
        rw [if_neg (by decide), if_pos trivial]
        match xs with
        | [] =>
          rw [show serializeList [] ++ ']' :: rest = ']' :: rest from rfl]
          rw [skipWs_cons (by decide)]
          simp
        | x :: xs' =>
          have hszL : szL (x :: xs') ≤ fuel := by
            simp only [szV] at hsz
            omega
          obtain ⟨c, t, hct, hcws, hcbr, -, -⟩ := serialize_head_start x
          have hhead : ∃ T, serializeList (x :: xs') ++ ']' :: rest = c :: T := by
            match xs' with
            | [] => exact ⟨t ++ ']' :: rest, by simp [serializeList, hct]⟩
            | y :: ys =>
              refine ⟨t ++ (',' :: serializeList (y :: ys)) ++ ']' :: rest, ?_⟩
              show (serialize x ++ ',' :: serializeList (y :: ys)) ++ ']' :: rest = _
              rw [hct]
              simp
          obtain ⟨T, hT⟩ := hhead
          rw [hT, skipWs_cons hcws]
          simp only []
          rw [if_neg (by intro he; rw [he] at hcbr; exact hcbr rfl)]
          rw [← hT]
          rw [ihE (x :: xs') rest (by simp) hsafe hszL]
          rfl
      | .obj kvs =>
        show parseValue (fuel + 1) (('{' :: serializeKvs kvs ++ ['}']) ++ rest) =
          some (Json.obj kvs, rest)
        rw [show ('{' :: serializeKvs kvs ++ ['}']) ++ rest =
            '{' :: (serializeKvs kvs ++ '}' :: rest) by simp]
        unfold parseValue
        rw [skipWs_cons (by decide)]
        simp only []
        rw [if_pos trivial]
        match kvs with
        | [] =>
          rw [show serializeKvs [] ++ '}' :: rest = '}' :: rest from rfl]
          rw [skipWs_cons (by decide)]
          simp
        | (k, v) :: kvs' =>
          have hszK : szK ((k, v) :: kvs') ≤ fuel := by
            simp only [szV] at hsz
            omega
          have hhead : ∃ T, serializeKvs ((k, v) :: kvs') ++ '}' :: rest = '"' :: T := by
            match kvs' with
            | [] => exact ⟨(k ++ '"' :: ':' :: serialize v) ++ '}' :: rest, by
                simp [serializeKvs]⟩
            | p :: ps => exact ⟨(k ++ '"' :: ':' :: serialize v ++
                ',' :: serializeKvs (p :: ps)) ++ '}' :: rest, by simp [serializeKvs]⟩
          obtain ⟨T, hT⟩ := hhead
          rw [hT, skipWs_cons (by decide)]
          simp only []
          rw [if_neg (by decide)]
          rw [← hT]
          rw [ihM ((k, v) :: kvs') rest (by simp) hsafe hszK]
          rfl
    · intro xs rest hne hsafe hsz
      match xs with
      | x :: xs' =>
        have hsx : safeJson x = true := by
          simp only [safeJsonList, Bool.and_eq_true] at hsafe
          exact hsafe.1
        have hsxs : safeJsonList xs' = true := by
          simp only [safeJsonList, Bool.and_eq_true] at hsafe
          exact hsafe.2
        have hszx : szV x ≤ fuel := by
          simp only [szL] at hsz
          omega
        have hszxs : szL xs' ≤ fuel := by
          simp only [szL] at hsz
          omega
        unfold parseElems
        match xs' with
        | [] =>
          rw [show serializeList [x] ++ ']' :: rest = serialize x ++ ']' :: rest from rfl]
          rw [ihV x (']' :: rest) hsx hszx rfl]
          simp only [bind, Option.bind]
          rw [skipWs_cons (by decide)]
          simp
        | y :: ys =>
          rw [show serializeList (x :: y :: ys) ++ ']' :: rest =
              serialize x ++ (',' :: (serializeList (y :: ys) ++ ']' :: rest)) by
            simp [serializeList]]
          rw [ihV x (',' :: (serializeList (y :: ys) ++ ']' :: rest)) hsx hszx rfl]
          simp only [bind, Option.bind]
          rw [skipWs_cons (by decide)]
          simp only []
          rw [ihE (y :: ys) rest (by simp) hsxs hszxs]
          rfl
    · intro kvs rest hne hsafe hsz
      match kvs with
      | (k, v) :: kvs' =>
        have hsk : ∀ c ∈ k, safeChar c = true := by
          simp only [safeJsonKvs, Bool.and_eq_true, List.all_eq_true] at hsafe
          exact hsafe.1.1
        have hsv : safeJson v = true := by
          simp only [safeJsonKvs, Bool.and_eq_true] at hsafe
          exact hsafe.1.2
        have hskvs : safeJsonKvs kvs' = true := by
          simp only [safeJsonKvs, Bool.and_eq_true] at hsafe
          exact hsafe.2
        have hszv : szV v ≤ fuel := by
          simp only [szK] at hsz
          omega
        have hszkvs : szK kvs' ≤ fuel := by
          simp only [szK] at hsz
          omega
        unfold parseMembers
        match kvs' with
        | [] =>
          rw [show serializeKvs [(k, v)] ++ '}' :: rest =
              '"' :: (k ++ '"' :: (':' :: (serialize v ++ '}' :: rest))) by
            simp [serializeKvs]]
          simp only []
          rw [parseStringBody_ser k _ hsk]
          simp only [bind, Option.bind]
          rw [skipWs_cons (by decide)]
          simp only []
          rw [ihV v ('}' :: rest) hsv hszv rfl]
          simp only [bind, Option.bind]
          rw [skipWs_cons (by decide)]
          simp
        | p :: ps =>
          rw [show serializeKvs ((k, v) :: p :: ps) ++ '}' :: rest =
              '"' :: (k ++ '"' :: (':' :: (serialize v ++
                ',' :: (serializeKvs (p :: ps) ++ '}' :: rest)))) by
            simp [serializeKvs]]
          simp only []
          rw [parseStringBody_ser k _ hsk]
          simp only [bind, Option.bind]
          rw [skipWs_cons (by decide)]
          simp only []
          rw [ihV v (',' :: (serializeKvs (p :: ps) ++ '}' :: rest)) hsv hszv rfl]
          simp only [bind, Option.bind]
          rw [skipWs_cons (by decide)]
          simp only []
          obtain ⟨T, hT⟩ : ∃ T, serializeKvs (p :: ps) ++ '}' :: rest = '"' :: T := by
            match p, ps with
            | (k2, v2), [] => exact ⟨(k2 ++ '"' :: ':' :: serialize v2) ++ '}' :: rest, by
                simp [serializeKvs]⟩
            | (k2, v2), q :: qs => exact ⟨(k2 ++ '"' :: ':' :: serialize v2 ++
                ',' :: serializeKvs (q :: qs)) ++ '}' :: rest, by simp [serializeKvs]⟩
          rw [hT, skipWs_cons (by decide), ← hT]
          rw [ihM (p :: ps) rest (by simp) hskvs hszkvs]
          rfl

mutual
theorem szV_le : (v : Json) → szV v ≤ (serialize v).length
  | .null => by simp [szV, serialize]
  | .bool true => by simp [szV, serialize]
  | .bool false => by simp [szV, serialize]
  | .num n => by
    have h : serialize (.num n) ≠ [] := by
      show intToStr n ≠ []
      unfold intToStr
      by_cases hneg : n < 0
      · simp [hneg]
      · simp only [hneg, if_false]
        exact natDigits_ne_nil _
    have : 1 ≤ (serialize (.num n)).length := by
      match hs : serialize (.num n) with
      | [] => exact absurd hs h
      | c :: t => simp
    simpa [szV] using this
  | .str s => by simp [szV, serialize]
  | .arr xs => by
    have h := szL_le xs
    simp only [szV, serialize, List.length_cons, List.length_append]
    simp
    omega
  | .obj kvs => by
    have h := szK_le kvs
    simp only [szV, serialize, List.length_cons, List.length_append]
    simp
    omega

theorem szL_le : (xs : List Json) → szL xs ≤ (serializeList xs).length + 1
  | [] => by simp [szL, serializeList]
  | [x] => by
    have h := szV_le x
    simp only [szL, szV, serializeList, List.length_nil]
    simp
    omega
  | x :: y :: ys => by
    have h1 := szV_le x
    have h2 := szL_le (y :: ys)
    have e1 : szL (x :: y :: ys) = max (szV x) (szL (y :: ys)) + 1 := rfl
    have e2 : (serializeList (x :: y :: ys)).length =
        (serialize x).length + 1 + (serializeList (y :: ys)).length := by
      simp [serializeList]
      omega
    omega

theorem szK_le : (kvs : List (Str × Json)) → szK kvs ≤ (serializeKvs kvs).length + 1
  | [] => by simp [szK, serializeKvs]
  | [(k, v)] => by
    have h := szV_le v
    simp only [szK, serializeKvs, List.length_append, List.length_cons]
    simp
    omega
  | (k, v) :: p :: ps => by
    have h1 := szV_le v
    have h2 := szK_le (p :: ps)
    have e1 : szK ((k, v) :: p :: ps) = max (szV v) (szK (p :: ps)) + 1 := rfl
    have e2 : (serializeKvs ((k, v) :: p :: ps)).length =
        k.length + 3 + (serialize v).length + 1 + (serializeKvs (p :: ps)).length := by
      simp [serializeKvs]
      omega
    omega
end

theorem parseJson_serialize (v : Json) (hsafe : safeJson v = true) :
    parseJson (serialize v) = some v := by
  have h := (parseSer_triple ((serialize v).length + 1)).1 v [] hsafe
    (by have := szV_le v; omega) rfl
  rw [show serialize v ++ ([] : Str) = serialize v by simp] at h
  unfold parseJson
  rw [h]
  simp [skipWs]

theorem commaOkB_cons {c : Char} {t : Str} (ht : commaOkB t = true)
    (hd : ∀ y, t.head? = some y → ¬(c = ',' ∧ (y = ']' ∨ y = '}'))) :
    commaOkB (c :: t) = true := by
  match t with
  | [] => rfl
  | y :: t' =>
    show ((if c = ',' ∧ (y = ']' ∨ y = '}') then false else true) && commaOkB (y :: t')) = true
    rw [if_neg (hd y rfl), ht]
    rfl

theorem commaOkB_of_no_comma : ∀ t : Str, (∀ c ∈ t, c ≠ ',') → commaOkB t = true := by
  intro t
  induction t with
  | nil => intro _; rfl
  | cons c t' ih =>
    intro h
    apply commaOkB_cons (ih (fun x hx => h x (by simp [hx])))
    intro y _ hcon
    exact h c (by simp) hcon.1

theorem commaOkB_append : ∀ (a : Str) {b : Str}, commaOkB a = true → commaOkB b = true →
    (∀ x y, a.getLast? = some x → b.head? = some y → ¬(x = ',' ∧ (y = ']' ∨ y = '}'))) →
    commaOkB (a ++ b) = true
  | [], b, _, hb, _ => by simpa using hb
  | [x], b, _, hb, hab => by
      simp only [List.cons_append, List.nil_append]
      exact commaOkB_cons hb (fun y hy => hab x y rfl hy)
  | x :: z :: a'', b, ha, hb, hab => by
      have hpair : ¬(x = ',' ∧ (z = ']' ∨ z = '}')) := by
        intro hcon
        simp only [commaOkB, Bool.and_eq_true] at ha
        rw [if_pos hcon] at ha
        exact absurd ha.1 (by decide)
      have hrec := commaOkB_append (z :: a'') (commaOkB_tail ha) hb
        (fun u y hu hy => hab u y (by rw [List.getLast?_cons_cons]; exact hu) hy)
      show ((if x = ',' ∧ (z = ']' ∨ z = '}') then false else true) &&
        commaOkB (z :: (a'' ++ b))) = true
      rw [if_neg hpair]
      simpa using hrec

theorem safeChar_props {c : Char} (h : safeChar c = true) :
    isJsWs c = false ∧ c ≠ '"' ∧ c ≠ '\\' ∧ c ≠ '{' ∧ c ≠ '}' ∧ c ≠ '[' ∧
    c ≠ ']' ∧ c ≠ ',' ∧ c ≠ ':' ∧ c ≠ backtick := by
  simp only [safeChar, Bool.and_eq_true, Bool.not_eq_true', decide_eq_false_iff_not,
    decide_eq_true_eq] at h
  exact ⟨h.1.1.1.1.1.1.1.1.1.1, h.1.1.1.1.1.1.1.1.1.2, h.1.1.1.1.1.1.1.1.2,
    h.1.1.1.1.1.1.1.2, h.1.1.1.1.1.1.2, h.1.1.1.1.1.2, h.1.1.1.1.2, h.1.1.1.2,
    h.1.1.2, h.1.2⟩

theorem digit_ne_backtick {c : Char} (h : c.isDigit = true) : c ≠ backtick := by
  intro he
  subst he
  exact absurd h (by decide)

theorem intToStr_chars (n : Int) : ∀ c ∈ intToStr n, c = '-' ∨ c.isDigit = true := by
  intro c hc
  unfold intToStr at hc
  by_cases hn : n < 0
  · rw [if_pos hn, List.mem_cons] at hc
    rcases hc with hc | hc
    · exact Or.inl hc
    · exact Or.inr (natDigits_digits _ c hc)
  · rw [if_neg hn] at hc
    exact Or.inr (natDigits_digits _ c hc)

theorem intToStr_ne_nil (n : Int) : intToStr n ≠ [] := by
  unfold intToStr
  by_cases hn : n < 0
  · rw [if_pos hn]
    simp
  · rw [if_neg hn]
    exact natDigits_ne_nil _

mutual
/-- Every character of a safe value's serialization is non-whitespace and
not a backtick. -/
theorem serialize_chars : (v : Json) → safeJson v = true →
    ∀ c ∈ serialize v, isJsWs c = false ∧ c ≠ backtick
  | .null, _ => by
      intro c hc
      simp only [serialize, List.mem_cons, List.not_mem_nil, or_false] at hc
      rcases hc with h | h | h | h <;> subst h <;> exact ⟨by decide, by decide⟩
  | .bool true, _ => by
      intro c hc
      simp only [serialize, List.mem_cons, List.not_mem_nil, or_false] at hc
      rcases hc with h | h | h | h <;> subst h <;> exact ⟨by decide, by decide⟩
  | .bool false, _ => by
      intro c hc
      simp only [serialize, List.mem_cons, List.not_mem_nil, or_false] at hc
      rcases hc with h | h | h | h | h <;> subst h <;> exact ⟨by decide, by decide⟩
  | .num n, _ => by
      intro c hc
      rcases intToStr_chars n c hc with h | h
      · subst h
        exact ⟨by decide, by decide⟩
      · exact ⟨(digit_not_ws h).1, digit_ne_backtick h⟩
  | .str s, hsafe => by
      intro c hc
      simp only [serialize, List.mem_cons, List.mem_append, List.mem_singleton,
        List.not_mem_nil, or_false] at hc
      rcases hc with (h | h) | h
      · subst h; exact ⟨by decide, by decide⟩
      · have hsc : safeChar c = true := by
          simp only [safeJson, List.all_eq_true] at hsafe
          exact hsafe c h
        have hp := safeChar_props hsc
        exact ⟨hp.1, hp.2.2.2.2.2.2.2.2.2⟩
      · subst h; exact ⟨by decide, by decide⟩
  | .arr xs, hsafe => by
      intro c hc
      simp only [serialize, List.mem_cons, List.mem_append, List.mem_singleton,
        List.not_mem_nil, or_false] at hc
      rcases hc with (h | h) | h
      · subst h; exact ⟨by decide, by decide⟩
      · exact serializeList_chars xs hsafe c h
      · subst h; exact ⟨by decide, by decide⟩
  | .obj kvs, hsafe => by
      intro c hc
      simp only [serialize, List.mem_cons, List.mem_append, List.mem_singleton,
        List.not_mem_nil, or_false] at hc
      rcases hc with (h | h) | h
      · subst h; exact ⟨by decide, by decide⟩
      · exact serializeKvs_chars kvs hsafe c h
      · subst h; exact ⟨by decide, by decide⟩

theorem serializeList_chars : (xs : List Json) → safeJsonList xs = true →
    ∀ c ∈ serializeList xs, isJsWs c = false ∧ c ≠ backtick
  | [], _ => by intro c hc; simp [serializeList] at hc
  | [x], hsafe => by
      intro c hc
      have hx : safeJson x = true := by
        simp only [safeJsonList, Bool.and_eq_true] at hsafe
        exact hsafe.1
      exact serialize_chars x hx c hc
  | x :: y :: ys, hsafe => by
      intro c hc
      have hx : safeJson x = true := by
        simp only [safeJsonList, Bool.and_eq_true] at hsafe
        exact hsafe.1
      have hrest : safeJsonList (y :: ys) = true := by
        simp only [safeJsonList, Bool.and_eq_true] at hsafe
        simp only [safeJsonList, Bool.and_eq_true]
        exact hsafe.2
      simp only [serializeList, List.mem_append, List.mem_cons] at hc
      rcases hc with h | h | h
      · exact serialize_chars x hx c h
      · subst h; exact ⟨by decide, by decide⟩
      · exact serializeList_chars (y :: ys) hrest c h

theorem serializeKvs_chars : (kvs : List (Str × Json)) → safeJsonKvs kvs = true →
    ∀ c ∈ serializeKvs kvs, isJsWs c = false ∧ c ≠ backtick
  | [], _ => by intro c hc; simp [serializeKvs] at hc
  | [(k, v)], hsafe => by
      intro c hc
      have hk : ∀ c ∈ k, safeChar c = true := by
        simp only [safeJsonKvs, Bool.and_eq_true, List.all_eq_true] at hsafe
        exact hsafe.1.1
      have hv : safeJson v = true := by
        simp only [safeJsonKvs, Bool.and_eq_true] at hsafe
        exact hsafe.1.2
      simp only [serializeKvs, List.mem_cons, List.mem_append] at hc
      rcases hc with (h | h) | h | h | h
      · subst h; exact ⟨by decide, by decide⟩
      · have hp := safeChar_props (hk c h)
        exact ⟨hp.1, hp.2.2.2.2.2.2.2.2.2⟩
      · subst h; exact ⟨by decide, by decide⟩
      · subst h; exact ⟨by decide, by decide⟩
      · exact serialize_chars v hv c h
  | (k, v) :: m :: kvs, hsafe => by
      intro c hc
      have hk : ∀ c ∈ k, safeChar c = true := by
        simp only [safeJsonKvs, Bool.and_eq_true, List.all_eq_true] at hsafe
        exact hsafe.1.1
      have hv : safeJson v = true := by
        simp only [safeJsonKvs, Bool.and_eq_true] at hsafe
        exact hsafe.1.2
      have hrest : safeJsonKvs (m :: kvs) = true := by
        simp only [safeJsonKvs, Bool.and_eq_true] at hsafe
        simp only [safeJsonKvs, Bool.and_eq_true]
        exact hsafe.2
      simp only [serializeKvs, List.mem_cons, List.mem_append] at hc
      rcases hc with ((h | h) | h | h | h) | h | h
      · subst h; exact ⟨by decide, by decide⟩
      · have hp := safeChar_props (hk c h)
        exact ⟨hp.1, hp.2.2.2.2.2.2.2.2.2⟩
      · subst h; exact ⟨by decide, by decide⟩
      · subst h; exact ⟨by decide, by decide⟩
      · exact serialize_chars v hv c h
      · subst h; exact ⟨by decide, by decide⟩
      · exact serializeKvs_chars (m :: kvs) hrest c h
end

theorem getLast_of_ne_nil {l : Str} (h : l ≠ []) : ∃ c, l.getLast? = some c ∧ c ∈ l := by
  match hl : l.getLast? with
  | none => exact absurd (List.getLast?_eq_none_iff.mp hl) h
  | some c => exact ⟨c, rfl, List.mem_of_mem_getLast? (by rw [hl]; rfl)⟩

theorem serializeList_head (y : Json) (ys : List Json) :
    ∃ c t, serializeList (y :: ys) = c :: t ∧ c ≠ ']' ∧ c ≠ '}' := by
  obtain ⟨c, t, hser, _, h1, h2, _⟩ := serialize_head_start y
  match ys with
  | [] => exact ⟨c, t, by simp [serializeList, hser], h1, h2⟩
  | z :: zs =>
    exact ⟨c, t ++ ',' :: serializeList (z :: zs), by simp [serializeList, hser], h1, h2⟩

theorem serializeKvs_head (m : Str × Json) (kvs : List (Str × Json)) :
    ∃ t, serializeKvs (m :: kvs) = '"' :: t := by
  match m, kvs with
  | (k, v), [] => exact ⟨k ++ '"' :: ':' :: serialize v, rfl⟩
  | (k, v), m2 :: rest =>
    exact ⟨(k ++ '"' :: ':' :: serialize v) ++ ',' :: serializeKvs (m2 :: rest),
      by simp [serializeKvs]⟩

theorem serializeMember_commaOk (k : Str) (v : Json) (hk : ∀ c ∈ k, safeChar c = true)
    (hcc : commaOkB (serialize v) = true)
    (hlast : ∃ c, (serialize v).getLast? = some c ∧ c ≠ ',') :
    commaOkB ('"' :: k ++ '"' :: ':' :: serialize v) = true ∧
    ∃ c, ('"' :: k ++ '"' :: ':' :: serialize v).getLast? = some c ∧ c ≠ ',' := by
  have hM : '"' :: k ++ '"' :: ':' :: serialize v =
      ('"' :: k ++ ['"', ':']) ++ serialize v := by simp
  have hA : commaOkB ('"' :: k ++ ['"', ':']) = true := by
    apply commaOkB_of_no_comma
    intro c hc
    simp only [List.mem_cons, List.mem_append, List.not_mem_nil, or_false] at hc
    rcases hc with (h | h) | h | h
    · subst h; decide
    · exact (safeChar_props (hk c h)).2.2.2.2.2.2.2.1
    · subst h; decide
    · subst h; decide
  have hAlast : ('"' :: k ++ ['"', ':']).getLast? = some ':' := by
    rw [show ('"' :: k ++ ['"', ':']) = ('"' :: k ++ ['"']) ++ [':'] from by simp]
    exact List.getLast?_concat _
  obtain ⟨c0, hc0, hc0ne⟩ := hlast
  have hsv_ne : serialize v ≠ [] := by
    intro he
    rw [he] at hc0
    simp at hc0
  constructor
  · rw [hM]
    apply commaOkB_append _ hA hcc
    intro x y hx hy
    rw [hAlast] at hx
    injection hx with hx
    subst hx
    rintro ⟨h1, _⟩
    exact absurd h1 (by decide)
  · refine ⟨c0, ?_, hc0ne⟩
    rw [hM, List.getLast?_append_of_ne_nil _ hsv_ne]
    exact hc0

mutual
/-- A safe value's serialization has no comma-before-closer pair and does
not end in a comma. -/
theorem serialize_commaOk : (v : Json) → safeJson v = true →
    commaOkB (serialize v) = true ∧ ∃ c, (serialize v).getLast? = some c ∧ c ≠ ','
  | .null, _ => ⟨by decide, 'l', by decide, by decide⟩
  | .bool true, _ => ⟨by decide, 'e', by decide, by decide⟩
  | .bool false, _ => ⟨by decide, 'e', by decide, by decide⟩
  | .num n, _ => by
      have hnc : ∀ c ∈ intToStr n, c ≠ ',' := by
        intro c hc
        rcases intToStr_chars n c hc with h | h
        · subst h; decide
        · exact (digit_ne h).2.2.2.2.2.2.2.2.2
      constructor
      · exact commaOkB_of_no_comma _ hnc
      · obtain ⟨c, hc, hmem⟩ := getLast_of_ne_nil (intToStr_ne_nil n)
        exact ⟨c, hc, hnc c hmem⟩
  | .str s, hsafe => by
      constructor
      · apply commaOkB_of_no_comma
        intro c hc
        simp only [serialize, List.mem_cons, List.mem_append, List.mem_singleton,
          List.not_mem_nil, or_false] at hc
        rcases hc with (h | h) | h
        · subst h; decide
        · have : safeChar c = true := by
            simp only [safeJson, List.all_eq_true] at hsafe
            exact hsafe c h
          exact (safeChar_props this).2.2.2.2.2.2.2.1
        · subst h; decide
      · refine ⟨'"', ?_, by decide⟩
        rw [show serialize (.str s) = ('"' :: s) ++ ['"'] from rfl]
        exact List.getLast?_concat _
  | .arr [], _ => ⟨by decide, ']', by decide, by decide⟩
  | .arr (x :: rest), hsafe => by
      obtain ⟨hS, c0, hc0, hc0ne⟩ := serializeList_commaOk (x :: rest) (by simp) hsafe
      constructor
      · show commaOkB ('[' :: (serializeList (x :: rest) ++ [']'])) = true
        apply commaOkB_cons
        · apply commaOkB_append _ hS (by decide)
          intro a b ha hb
          rw [hc0] at ha
          injection ha with ha
          subst ha
          rintro ⟨h1, _⟩
          exact absurd h1 hc0ne
        · intro y _
          rintro ⟨h1, _⟩
          exact absurd h1 (by decide)
      · refine ⟨']', ?_, by decide⟩
        rw [show serialize (.arr (x :: rest)) =
          ('[' :: serializeList (x :: rest)) ++ [']'] from by simp [serialize]]
        exact List.getLast?_concat _
  | .obj [], _ => ⟨by decide, '}', by decide, by decide⟩
  | .obj (m :: rest), hsafe => by
      obtain ⟨hS, c0, hc0, hc0ne⟩ := serializeKvs_commaOk (m :: rest) (by simp) hsafe
      constructor
      · show commaOkB ('{' :: (serializeKvs (m :: rest) ++ ['}'])) = true
        apply commaOkB_cons
        · apply commaOkB_append _ hS (by decide)
          intro a b ha hb
          rw [hc0] at ha
          injection ha with ha
          subst ha
          rintro ⟨h1, _⟩
          exact absurd h1 hc0ne
        · intro y _
          rintro ⟨h1, _⟩
          exact absurd h1 (by decide)
      · refine ⟨'}', ?_, by decide⟩
        rw [show serialize (.obj (m :: rest)) =
          ('{' :: serializeKvs (m :: rest)) ++ ['}'] from by simp [serialize]]
        exact List.getLast?_concat _

theorem serializeList_commaOk : (xs : List Json) → xs ≠ [] → safeJsonList xs = true →
    commaOkB (serializeList xs) = true ∧
    ∃ c, (serializeList xs).getLast? = some c ∧ c ≠ ','
  | [x], _, hsafe => by
      have hx : safeJson x = true := by
        simp only [safeJsonList, Bool.and_eq_true] at hsafe
        exact hsafe.1
      show commaOkB (serialize x) = true ∧ ∃ c, (serialize x).getLast? = some c ∧ c ≠ ','
      exact serialize_commaOk x hx
  | x :: y :: ys, _, hsafe => by
      have hx : safeJson x = true := by
        simp only [safeJsonList, Bool.and_eq_true] at hsafe
        exact hsafe.1
      have hrest : safeJsonList (y :: ys) = true := by
        simp only [safeJsonList, Bool.and_eq_true] at hsafe
        simp only [safeJsonList, Bool.and_eq_true]
        exact hsafe.2
      obtain ⟨hAcc, cA, hcA, _⟩ := serialize_commaOk x hx
      obtain ⟨hScc, c0, hc0, hc0ne⟩ := serializeList_commaOk (y :: ys) (by simp) hrest
      obtain ⟨ch, th, hhd, hne1, hne2⟩ := serializeList_head y ys
      have hSne : serializeList (y :: ys) ≠ [] := by rw [hhd]; simp
      constructor
      · show commaOkB (serialize x ++ ',' :: serializeList (y :: ys)) = true
        apply commaOkB_append _ hAcc
        · apply commaOkB_cons hScc
          intro y0 hy0
          rw [hhd] at hy0
          injection hy0 with hy0
          subst hy0
          rintro ⟨_, h2 | h2⟩
          · exact absurd h2 hne1
          · exact absurd h2 hne2
        · intro a b ha hb
          injection hb with hb
          subst hb
          rintro ⟨_, h2 | h2⟩ <;> exact absurd h2 (by decide)
      · refine ⟨c0, ?_, hc0ne⟩
        show (serialize x ++ ',' :: serializeList (y :: ys)).getLast? = some c0
        rw [List.getLast?_append_of_ne_nil _ (by simp),
          show (',' :: serializeList (y :: ys)) = [','] ++ serializeList (y :: ys) from rfl,
          List.getLast?_append_of_ne_nil _ hSne]
        exact hc0

theorem serializeKvs_commaOk : (kvs : List (Str × Json)) → kvs ≠ [] →
    safeJsonKvs kvs = true →
    commaOkB (serializeKvs kvs) = true ∧
    ∃ c, (serializeKvs kvs).getLast? = some c ∧ c ≠ ','
  | [(k, v)], _, hsafe => by
      have hk : ∀ c ∈ k, safeChar c = true := by
        simp only [safeJsonKvs, Bool.and_eq_true, List.all_eq_true] at hsafe
        exact hsafe.1.1
      have hv : safeJson v = true := by
        simp only [safeJsonKvs, Bool.and_eq_true] at hsafe
        exact hsafe.1.2
      obtain ⟨hvcc, hvlast⟩ := serialize_commaOk v hv
      show commaOkB ('"' :: k ++ '"' :: ':' :: serialize v) = true ∧
        ∃ c, ('"' :: k ++ '"' :: ':' :: serialize v).getLast? = some c ∧ c ≠ ','
      exact serializeMember_commaOk k v hk hvcc hvlast
  | (k, v) :: m :: rest, _, hsafe => by
      have hk : ∀ c ∈ k, safeChar c = true := by
        simp only [safeJsonKvs, Bool.and_eq_true, List.all_eq_true] at hsafe
        exact hsafe.1.1
      have hv : safeJson v = true := by
        simp only [safeJsonKvs, Bool.and_eq_true] at hsafe
        exact hsafe.1.2
      have hrest : safeJsonKvs (m :: rest) = true := by
        simp only [safeJsonKvs, Bool.and_eq_true] at hsafe
        simp only [safeJsonKvs, Bool.and_eq_true]
        exact hsafe.2
      obtain ⟨hvcc, hvlast⟩ := serialize_commaOk v hv
      obtain ⟨hMcc, cM, hcM, _⟩ := serializeMember_commaOk k v hk hvcc hvlast
      obtain ⟨hScc, c0, hc0, hc0ne⟩ := serializeKvs_commaOk (m :: rest) (by simp) hrest
      obtain ⟨th, hhd⟩ := serializeKvs_head m rest
      have hSne : serializeKvs (m :: rest) ≠ [] := by rw [hhd]; simp
      constructor
      · show commaOkB (('"' :: k ++ '"' :: ':' :: serialize v) ++
          ',' :: serializeKvs (m :: rest)) = true
        apply commaOkB_append _ hMcc
        · apply commaOkB_cons hScc
          intro y0 hy0
          rw [hhd] at hy0
          injection hy0 with hy0
          subst hy0
          rintro ⟨_, h2 | h2⟩ <;> exact absurd h2 (by decide)
        · intro a b ha hb
          injection hb with hb
          subst hb
          rintro ⟨_, h2 | h2⟩ <;> exact absurd h2 (by decide)
      · refine ⟨c0, ?_, hc0ne⟩
        show ((('"' :: k ++ '"' :: ':' :: serialize v)) ++
          ',' :: serializeKvs (m :: rest)).getLast? = some c0
        rw [List.getLast?_append_of_ne_nil _ (by simp),
          show (',' :: serializeKvs (m :: rest)) = [','] ++ serializeKvs (m :: rest) from rfl,
          List.getLast?_append_of_ne_nil _ hSne]
        exact hc0
end

theorem scanStepInStr (c : Char) (t : Str) (i : Nat) (b k : Int) (ls : Option Nat)
    (hq : c ≠ '"') (hbs : c ≠ '\\') (hb : 0 ≤ b) (hk : 0 ≤ k) :
    scanLoop (c :: t) i ⟨b, k, true, false, ls⟩ =
      scanLoop t (i + 1) ⟨b, k, true, false, ls⟩ := by
  have hb' : ¬(b < 0) := by omega
  have hk' : ¬(k < 0) := by omega
  simp [scanLoop, hq, hbs, hb', hk']

theorem scanStepOutside (c : Char) (t : Str) (i : Nat) (b k : Int) (ls : Option Nat)
    (hq : c ≠ '"') (hbs : c ≠ '\\') (h1 : c ≠ '{') (h2 : c ≠ '}') (h3 : c ≠ '[')
    (h4 : c ≠ ']') (hb : 0 ≤ b) (hk : 0 ≤ k) (hsum : 1 ≤ b + k) :
    scanLoop (c :: t) i ⟨b, k, false, false, ls⟩ =
      scanLoop t (i + 1) ⟨b, k, false, false, if c = ',' then some i else ls⟩ := by
  have hb' : ¬(b < 0) := by omega
  have hk' : ¬(k < 0) := by omega
  have hcut : ¬(b = 0 ∧ k = 0 ∧ 0 < i) := by
    rintro ⟨rfl, rfl, _⟩
    omega
  simp [scanLoop, hq, hbs, h1, h2, h3, h4, hb', hk', hcut, hb, hk]

theorem scanStepQuoteOpen (t : Str) (i : Nat) (b k : Int) (ls : Option Nat)
    (hb : 0 ≤ b) (hk : 0 ≤ k) :
    scanLoop ('"' :: t) i ⟨b, k, false, false, ls⟩ =
      scanLoop t (i + 1) ⟨b, k, true, false, ls⟩ := by
  have hb' : ¬(b < 0) := by omega
  have hk' : ¬(k < 0) := by omega
  simp [scanLoop, hb', hk']

theorem scanStepQuoteClose (t : Str) (i : Nat) (b k : Int) (ls : Option Nat)
    (hb : 0 ≤ b) (hk : 0 ≤ k) (hsum : 1 ≤ b + k) :
    scanLoop ('"' :: t) i ⟨b, k, true, false, ls⟩ =
      scanLoop t (i + 1) ⟨b, k, false, false, ls⟩ := by
  have hb' : ¬(b < 0) := by omega
  have hk' : ¬(k < 0) := by omega
  have hcut : ¬(b = 0 ∧ k = 0 ∧ 0 < i) := by
    rintro ⟨rfl, rfl, _⟩
    omega
  simp [scanLoop, hb', hk', hcut]

theorem scanStepBraceOpen (t : Str) (i : Nat) (b k : Int) (ls : Option Nat)
    (hb : 0 ≤ b) (hk : 0 ≤ k) :
    scanLoop ('{' :: t) i ⟨b, k, false, false, ls⟩ =
      scanLoop t (i + 1) ⟨b + 1, k, false, false, ls⟩ := by
  have hb' : ¬(b + 1 < 0) := by omega
  have hk' : ¬(k < 0) := by omega
  have hcut : ¬(b + 1 = 0 ∧ k = 0 ∧ 0 < i) := by
    rintro ⟨hb1, rfl, _⟩
    omega
  simp [scanLoop, hb', hk', hcut]

theorem scanStepBracketOpen (t : Str) (i : Nat) (b k : Int) (ls : Option Nat)
    (hb : 0 ≤ b) (hk : 0 ≤ k) :
    scanLoop ('[' :: t) i ⟨b, k, false, false, ls⟩ =
      scanLoop t (i + 1) ⟨b, k + 1, false, false, ls⟩ := by
  have hb' : ¬(b < 0) := by omega
  have hk' : ¬(k + 1 < 0) := by omega
  have hcut : ¬(b = 0 ∧ k + 1 = 0 ∧ 0 < i) := by
    rintro ⟨rfl, hk1, _⟩
    omega
  simp [scanLoop, hb', hk', hcut]

theorem scanStepBraceClose (t : Str) (i : Nat) (b k : Int) (ls : Option Nat)
    (hb : 1 ≤ b) (hk : 0 ≤ k) (hsum : 1 ≤ (b - 1) + k) :
    scanLoop ('}' :: t) i ⟨b, k, false, false, ls⟩ =
      scanLoop t (i + 1) ⟨b - 1, k, false, false, some i⟩ := by
  have hb' : ¬(b - 1 < 0) := by omega
  have hk' : ¬(k < 0) := by omega
  have hcut : ¬(b - 1 = 0 ∧ k = 0 ∧ 0 < i) := by
    rintro ⟨hb1, rfl, _⟩
    omega
  have hls : 0 ≤ b - 1 ∧ 0 ≤ k := by omega
  simp [scanLoop, hb', hk', hcut, hls.1, hls.2]

theorem scanStepBracketClose (t : Str) (i : Nat) (b k : Int) (ls : Option Nat)
    (hb : 0 ≤ b) (hk : 1 ≤ k) (hsum : 1 ≤ b + (k - 1)) :
    scanLoop (']' :: t) i ⟨b, k, false, false, ls⟩ =
      scanLoop t (i + 1) ⟨b, k - 1, false, false, some i⟩ := by
  have hb' : ¬(b < 0) := by omega
  have hk' : ¬(k - 1 < 0) := by omega
  have hcut : ¬(b = 0 ∧ k - 1 = 0 ∧ 0 < i) := by
    rintro ⟨rfl, hk1, _⟩
    omega
  have hls : 0 ≤ b ∧ 0 ≤ k - 1 := by omega
  simp [scanLoop, hb', hk', hcut, hls.1, hls.2]

theorem digit_ne_backslash {c : Char} (h : c.isDigit = true) : c ≠ '\\' := by
  intro he
  subst he
  exact absurd h (by decide)

theorem scanInStrRun : ∀ (s : Str), (∀ c ∈ s, c ≠ '"' ∧ c ≠ '\\') →
    ∀ (ys : Str) (i : Nat) (b k : Int) (ls : Option Nat), 0 ≤ b → 0 ≤ k →
    scanLoop (s ++ ys) i ⟨b, k, true, false, ls⟩ =
      scanLoop ys (i + s.length) ⟨b, k, true, false, ls⟩
  | [], _ => by
      intro ys i b k ls _ _
      simp
  | c :: s', h => by
      intro ys i b k ls hb hk
      have hc := h c (by simp)
      have h' : ∀ c ∈ s', c ≠ '"' ∧ c ≠ '\\' := fun x hx => h x (by simp [hx])
      have hlen : i + (c :: s').length = (i + 1) + s'.length := by
        simp [List.length_cons]
        omega
      rw [List.cons_append, scanStepInStr c (s' ++ ys) i b k ls hc.1 hc.2 hb hk, hlen]
      exact scanInStrRun s' h' ys (i + 1) b k ls hb hk

theorem scanInertRun : ∀ (s : Str),
    (∀ c ∈ s, c ≠ '"' ∧ c ≠ '\\' ∧ c ≠ '{' ∧ c ≠ '}' ∧ c ≠ '[' ∧ c ≠ ']') →
    ∀ (ys : Str) (i : Nat) (b k : Int) (ls : Option Nat), 0 ≤ b → 0 ≤ k → 1 ≤ b + k →
    ∃ ls', scanLoop (s ++ ys) i ⟨b, k, false, false, ls⟩ =
      scanLoop ys (i + s.length) ⟨b, k, false, false, ls'⟩
  | [], _ => by
      intro ys i b k ls _ _ _
      exact ⟨ls, by simp⟩
  | c :: s', h => by
      intro ys i b k ls hb hk hsum
      have hc := h c (by simp)
      have h' : ∀ c ∈ s', c ≠ '"' ∧ c ≠ '\\' ∧ c ≠ '{' ∧ c ≠ '}' ∧ c ≠ '[' ∧ c ≠ ']' :=
        fun x hx => h x (by simp [hx])
      have hlen : i + (c :: s').length = (i + 1) + s'.length := by
        simp [List.length_cons]
        omega
      obtain ⟨ls', hrec⟩ := scanInertRun s' h' ys (i + 1) b k
        (if c = ',' then some i else ls) hb hk hsum
      refine ⟨ls', ?_⟩
      rw [List.cons_append, scanStepOutside c (s' ++ ys) i b k ls hc.1 hc.2.1 hc.2.2.1
        hc.2.2.2.1 hc.2.2.2.2.1 hc.2.2.2.2.2 hb hk hsum, hlen]
      exact hrec

theorem scanStrRun (s : Str) (hsafe : ∀ c ∈ s, safeChar c = true)
    (ys : Str) (i : Nat) (b k : Int) (ls : Option Nat)
    (hb : 0 ≤ b) (hk : 0 ≤ k) (hsum : 1 ≤ b + k) :
    scanLoop (('"' :: s ++ ['"']) ++ ys) i ⟨b, k, false, false, ls⟩ =
      scanLoop ys (i + (s.length + 2)) ⟨b, k, false, false, ls⟩ := by
  have hshape : ('"' :: s ++ ['"']) ++ ys = '"' :: (s ++ ('"' :: ys)) := by simp
  have hchars : ∀ c ∈ s, c ≠ '"' ∧ c ≠ '\\' := by
    intro c hc
    have hp := safeChar_props (hsafe c hc)
    exact ⟨hp.2.1, hp.2.2.1⟩
  rw [hshape, scanStepQuoteOpen _ i b k ls hb hk,
    scanInStrRun s hchars ('"' :: ys) (i + 1) b k ls hb hk,
    scanStepQuoteClose ys (i + 1 + s.length) b k ls hb hk hsum]
  have : i + 1 + s.length + 1 = i + (s.length + 2) := by omega
  rw [this]

mutual
/-- Scanning a safe value's serialization from an outside-string state with
at least one open container leaves both counters unchanged and never
triggers the zero-balance cut. -/
theorem scanV : (v : Json) → safeJson v = true →
    ∀ (ys : Str) (i : Nat) (b k : Int) (ls : Option Nat), 0 ≤ b → 0 ≤ k → 1 ≤ b + k →
    ∃ ls', scanLoop (serialize v ++ ys) i ⟨b, k, false, false, ls⟩ =
      scanLoop ys (i + (serialize v).length) ⟨b, k, false, false, ls'⟩
  | .null, _ => by
      intro ys i b k ls hb hk hsum
      exact scanInertRun (serialize .null) (by decide) ys i b k ls hb hk hsum
  | .bool true, _ => by
      intro ys i b k ls hb hk hsum
      exact scanInertRun (serialize (.bool true)) (by decide) ys i b k ls hb hk hsum
  | .bool false, _ => by
      intro ys i b k ls hb hk hsum
      exact scanInertRun (serialize (.bool false)) (by decide) ys i b k ls hb hk hsum
  | .num n, _ => by
      intro ys i b k ls hb hk hsum
      apply scanInertRun (serialize (.num n)) _ ys i b k ls hb hk hsum
      intro c hc
      rcases intToStr_chars n c hc with h | h
      · subst h
        exact ⟨by decide, by decide, by decide, by decide, by decide, by decide⟩
      · have d := digit_ne h
        exact ⟨d.2.2.1, digit_ne_backslash h, d.1, d.2.2.2.2.2.2.2.2.1, d.2.1,
          d.2.2.2.2.2.2.2.1⟩
  | .str s, hsafe => by
      intro ys i b k ls hb hk hsum
      have hk' : ∀ c ∈ s, safeChar c = true := by
        simp only [safeJson, List.all_eq_true] at hsafe
        exact hsafe
      refine ⟨ls, ?_⟩
      have hshape : serialize (.str s) ++ ys = ('"' :: s ++ ['"']) ++ ys := by
        simp [serialize]
      have hlen : (serialize (.str s)).length = s.length + 2 := by
        simp [serialize]
      rw [hshape, scanStrRun s hk' ys i b k ls hb hk hsum, hlen]
  | .arr xs, hsafe => by
      intro ys i b k ls hb hk hsum
      have hshape : serialize (.arr xs) ++ ys =
          '[' :: (serializeList xs ++ (']' :: ys)) := by simp [serialize]
      obtain ⟨ls2, hrec⟩ := scanL xs hsafe (']' :: ys) (i + 1) b (k + 1) ls hb
        (by omega) (by omega)
      refine ⟨some (i + 1 + (serializeList xs).length), ?_⟩
      rw [hshape, scanStepBracketOpen _ i b k ls hb hk, hrec,
        scanStepBracketClose ys _ b (k + 1) ls2 hb (by omega) (by omega)]
      have h1 : k + 1 - 1 = k := by omega
      have h2 : i + 1 + (serializeList xs).length + 1 =
          i + (serialize (.arr xs)).length := by
        simp [serialize]
        omega
      rw [h1, h2]
  | .obj kvs, hsafe => by
      intro ys i b k ls hb hk hsum
      have hshape : serialize (.obj kvs) ++ ys =
          '{' :: (serializeKvs kvs ++ ('}' :: ys)) := by simp [serialize]
      obtain ⟨ls2, hrec⟩ := scanK kvs hsafe ('}' :: ys) (i + 1) (b + 1) k ls
        (by omega) hk (by omega)
      refine ⟨some (i + 1 + (serializeKvs kvs).length), ?_⟩
      rw [hshape, scanStepBraceOpen _ i b k ls hb hk, hrec,
        scanStepBraceClose ys _ (b + 1) k ls2 (by omega) hk (by omega)]
      have h1 : b + 1 - 1 = b := by omega
      have h2 : i + 1 + (serializeKvs kvs).length + 1 =
          i + (serialize (.obj kvs)).length := by
        simp [serialize]
        omega
      rw [h1, h2]

theorem scanL : (xs : List Json) → safeJsonList xs = true →
    ∀ (ys : Str) (i : Nat) (b k : Int) (ls : Option Nat), 0 ≤ b → 0 ≤ k → 1 ≤ b + k →
    ∃ ls', scanLoop (serializeList xs ++ ys) i ⟨b, k, false, false, ls⟩ =
      scanLoop ys (i + (serializeList xs).length) ⟨b, k, false, false, ls'⟩
  | [], _ => by
      intro ys i b k ls _ _ _
      refine ⟨ls, ?_⟩
      show scanLoop ([] ++ ys) i _ = _
      simp [serializeList]
  | [x], hsafe => by
      intro ys i b k ls hb hk hsum
      have hx : safeJson x = true := by
        simp only [safeJsonList, Bool.and_eq_true] at hsafe
        exact hsafe.1
      show ∃ ls', scanLoop (serialize x ++ ys) i _ =
        scanLoop ys (i + (serialize x).length) _
      exact scanV x hx ys i b k ls hb hk hsum
  | x :: y :: ys', hsafe => by
      intro ys i b k ls hb hk hsum
      have hx : safeJson x = true := by
        simp only [safeJsonList, Bool.and_eq_true] at hsafe
        exact hsafe.1
      have hrest : safeJsonList (y :: ys') = true := by
        simp only [safeJsonList, Bool.and_eq_true] at hsafe
        simp only [safeJsonList, Bool.and_eq_true]
        exact hsafe.2
      have hshape : serializeList (x :: y :: ys') ++ ys =
          serialize x ++ (',' :: (serializeList (y :: ys') ++ ys)) := by
        show (serialize x ++ ',' :: serializeList (y :: ys')) ++ ys = _
        simp
      obtain ⟨ls1, h1⟩ := scanV x hx (',' :: (serializeList (y :: ys') ++ ys)) i b k ls
        hb hk hsum
      have hstep := scanStepOutside ',' (serializeList (y :: ys') ++ ys)
        (i + (serialize x).length) b k ls1 (by decide) (by decide) (by decide) (by decide)
        (by decide) (by decide) hb hk hsum
      rw [if_pos rfl] at hstep
      obtain ⟨ls2, h2⟩ := scanL (y :: ys') hrest ys (i + (serialize x).length + 1) b k
        (some (i + (serialize x).length)) hb hk hsum
      refine ⟨ls2, ?_⟩
      rw [hshape, h1, hstep, h2]
      have : i + (serialize x).length + 1 + (serializeList (y :: ys')).length =
          i + (serializeList (x :: y :: ys')).length := by
        show _ = i + (serialize x ++ ',' :: serializeList (y :: ys')).length
        simp
        omega
      rw [this]

theorem scanK : (kvs : List (Str × Json)) → safeJsonKvs kvs = true →
    ∀ (ys : Str) (i : Nat) (b k : Int) (ls : Option Nat), 0 ≤ b → 0 ≤ k → 1 ≤ b + k →
    ∃ ls', scanLoop (serializeKvs kvs ++ ys) i ⟨b, k, false, false, ls⟩ =
      scanLoop ys (i + (serializeKvs kvs).length) ⟨b, k, false, false, ls'⟩
  | [], _ => by
      intro ys i b k ls _ _ _
      refine ⟨ls, ?_⟩
      show scanLoop ([] ++ ys) i _ = _
      simp [serializeKvs]
  | [(key, v)], hsafe => by
      intro ys i b k ls hb hk hsum
      have hkey : ∀ c ∈ key, safeChar c = true := by
        simp only [safeJsonKvs, Bool.and_eq_true, List.all_eq_true] at hsafe
        exact hsafe.1.1
      have hv : safeJson v = true := by
        simp only [safeJsonKvs, Bool.and_eq_true] at hsafe
        exact hsafe.1.2
      have hshape : serializeKvs [(key, v)] ++ ys =
          ('"' :: key ++ ['"']) ++ (':' :: (serialize v ++ ys)) := by
        show ('"' :: key ++ '"' :: ':' :: serialize v) ++ ys = _
        simp
      have hstep := scanStepOutside ':' (serialize v ++ ys) (i + (key.length + 2)) b k ls
        (by decide) (by decide) (by decide) (by decide) (by decide) (by decide) hb hk hsum
      rw [if_neg (by decide)] at hstep
      obtain ⟨ls1, h1⟩ := scanV v hv ys (i + (key.length + 2) + 1) b k ls hb hk hsum
      refine ⟨ls1, ?_⟩
      rw [hshape, scanStrRun key hkey _ i b k ls hb hk hsum, hstep, h1]
      have : i + (key.length + 2) + 1 + (serialize v).length =
          i + (serializeKvs [(key, v)]).length := by
        show _ = i + ('"' :: key ++ '"' :: ':' :: serialize v).length
        simp
        omega
      rw [this]
  | (key, v) :: m :: rest, hsafe => by
      intro ys i b k ls hb hk hsum
      have hkey : ∀ c ∈ key, safeChar c = true := by
        simp only [safeJsonKvs, Bool.and_eq_true, List.all_eq_true] at hsafe
        exact hsafe.1.1
      have hv : safeJson v = true := by
        simp only [safeJsonKvs, Bool.and_eq_true] at hsafe
        exact hsafe.1.2
      have hrest : safeJsonKvs (m :: rest) = true := by
        simp only [safeJsonKvs, Bool.and_eq_true] at hsafe
        simp only [safeJsonKvs, Bool.and_eq_true]
        exact hsafe.2
      have hshape : serializeKvs ((key, v) :: m :: rest) ++ ys =
          ('"' :: key ++ ['"']) ++
            (':' :: (serialize v ++ (',' :: (serializeKvs (m :: rest) ++ ys)))) := by
        show (('"' :: key ++ '"' :: ':' :: serialize v) ++ ',' :: serializeKvs (m :: rest))
          ++ ys = _
        simp
      have hstep1 := scanStepOutside ':'
        (serialize v ++ (',' :: (serializeKvs (m :: rest) ++ ys)))
        (i + (key.length + 2)) b k ls
        (by decide) (by decide) (by decide) (by decide) (by decide) (by decide) hb hk hsum
      rw [if_neg (by decide)] at hstep1
      obtain ⟨ls1, h1⟩ := scanV v hv (',' :: (serializeKvs (m :: rest) ++ ys))
        (i + (key.length + 2) + 1) b k ls hb hk hsum
      have hstep2 := scanStepOutside ',' (serializeKvs (m :: rest) ++ ys)
        (i + (key.length + 2) + 1 + (serialize v).length) b k ls1
        (by decide) (by decide) (by decide) (by decide) (by decide) (by decide) hb hk hsum
      rw [if_pos rfl] at hstep2
      obtain ⟨ls2, h2⟩ := scanK (m :: rest) hrest ys
        (i + (key.length + 2) + 1 + (serialize v).length + 1) b k
        (some (i + (key.length + 2) + 1 + (serialize v).length)) hb hk hsum
      refine ⟨ls2, ?_⟩
      rw [hshape, scanStrRun key hkey _ i b k ls hb hk hsum, hstep1, h1, hstep2, h2]
      have : i + (key.length + 2) + 1 + (serialize v).length + 1 +
          (serializeKvs (m :: rest)).length =
          i + (serializeKvs ((key, v) :: m :: rest)).length := by
        show _ = i + (('"' :: key ++ '"' :: ':' :: serialize v) ++
          ',' :: serializeKvs (m :: rest)).length
        simp
        omega
      rw [this]
end

/-- On a safe container value's serialization the v3.1 scan fires its
zero-balance exit exactly at the final closer, cutting nothing. -/
theorem scanRoot : ∀ (v : Json), safeJson v = true → isContainer v = true →
    scanCutLen (serialize v) = some (serialize v).length
  | .arr xs, hsafe, _ => by
      have hshape : serialize (.arr xs) = '[' :: (serializeList xs ++ [']']) := by
        simp [serialize]
      obtain ⟨ls2, h1⟩ := scanL xs hsafe [']'] 1 0 1 none (by omega) (by omega) (by omega)
      have hfin : scanLoop [']'] (1 + (serializeList xs).length) ⟨0, 1, false, false, ls2⟩ =
          .cut (1 + (serializeList xs).length + 1)
            ⟨0, 0, false, false, some (1 + (serializeList xs).length)⟩ := by
        have hj : 0 < 1 + (serializeList xs).length := by omega
        simp [scanLoop, hj]
      unfold scanCutLen
      rw [show initScanSt = ⟨0, 0, false, false, none⟩ from rfl, hshape,
        scanStepBracketOpen _ 0 0 0 none (by omega) (by omega)]
      rw [show (0 : Int) + 1 = 1 from rfl] at *
      rw [show (0 : Nat) + 1 = 1 from rfl, h1, hfin]
      simp [hshape]
      omega
  | .obj kvs, hsafe, _ => by
      have hshape : serialize (.obj kvs) = '{' :: (serializeKvs kvs ++ ['}']) := by
        simp [serialize]
      obtain ⟨ls2, h1⟩ := scanK kvs hsafe ['}'] 1 1 0 none (by omega) (by omega) (by omega)
      have hfin : scanLoop ['}'] (1 + (serializeKvs kvs).length) ⟨1, 0, false, false, ls2⟩ =
          .cut (1 + (serializeKvs kvs).length + 1)
            ⟨0, 0, false, false, some (1 + (serializeKvs kvs).length)⟩ := by
        have hj : 0 < 1 + (serializeKvs kvs).length := by omega
        simp [scanLoop, hj]
      unfold scanCutLen
      rw [show initScanSt = ⟨0, 0, false, false, none⟩ from rfl, hshape,
        scanStepBraceOpen _ 0 0 0 none (by omega) (by omega)]
      rw [show (0 : Int) + 1 = 1 from rfl] at *
      rw [show (0 : Nat) + 1 = 1 from rfl, h1, hfin]
      simp [hshape]
      omega

/-- Claim C4, amended: the claim's identity behaviour does hold away from
the string-corrupting rewrites: for every JSON value over the safe
alphabet whose root is an object or array, recovery of its canonical
serialization is the literal identity, and the recovered text parses back
to exactly the original value (so recovery is harmless precisely when no
string literal contains the characters the post-processing rewrites
blindly). -/
theorem claimC4 (v : Json) (hsafe : safeJson v = true) (hroot : isContainer v = true) :
    cleanJsonString (serialize v) = serialize v ∧
    parseJson (serialize v) = some v ∧
    parseJson (cleanJsonString (serialize v)) = some v := by
  have hhead : (serialize v).head? = some '{' ∨ (serialize v).head? = some '[' := by
    match v, hroot with
    | .arr xs, _ => exact Or.inr rfl
    | .obj kvs, _ => exact Or.inl rfl
  have hlast : (serialize v).getLast? ≠ some backtick := by
    intro hcon
    have hmem : backtick ∈ serialize v := List.mem_of_mem_getLast? (by rw [hcon]; rfl)
    exact absurd rfl ((serialize_chars v hsafe _ hmem).2)
  have hws : ∀ c ∈ serialize v, isJsWs c = false :=
    fun c hc => (serialize_chars v hsafe c hc).1
  have hcc : commaOkB (serialize v) = true := (serialize_commaOk v hsafe).1
  have hid := cleanJson_id (serialize v) hhead hlast hws hcc (scanRoot v hsafe hroot)
  have hp := parseJson_serialize v hsafe
  exact ⟨hid, hp, by rw [hid]; exact hp⟩

theorem claimC4_witness :
    safeJson c4goodValue = true ∧ isContainer c4goodValue = true ∧
    serialize c4goodValue = c4goodText ∧
    (cleanJsonString (serialize c4goodValue) = serialize c4goodValue ∧
     parseJson (serialize c4goodValue) = some c4goodValue ∧
     parseJson (cleanJsonString (serialize c4goodValue)) = some c4goodValue) :=
  ⟨by decide, by decide, by decide, claimC4 c4goodValue (by decide) (by decide)⟩
